import Mathlib

set_option maxRecDepth 20000

/-!
Verification of the OpenMV channel protocol specification.

The protocol engine (framing, dual-CRC validation, sequencing, fragmentation,
retransmission, capability negotiation) is specified in `docs/protocol.md`;
its C implementation is not part of the sources at hand, so the definitions
below are modelled from the specification text.  The `framebuffer_reset`
helper of `framebuffer.h` is embedded directly from its C source.

Bytes are modelled as `Nat` together with explicit `< 256` bounds; machine
words wrap with explicit `% 2 ^ w` or masks where it matters.
-/

/-! ## Byte-level utilities -/

/-- Little-endian encoding of a 16-bit value as two bytes. -/
def le16 (n : Nat) : List Nat := [n % 256, n / 256 % 256]

/-- Little-endian encoding of a 32-bit value as four bytes. -/
def le32 (n : Nat) : List Nat :=
  [n % 256, n / 256 % 256, n / 65536 % 256, n / 16777216 % 256]

/-- Read a little-endian 16-bit value at offset `i` of a byte list. -/
def readLE16 (l : List Nat) (i : Nat) : Nat :=
  l.getD i 0 + 256 * l.getD (i + 1) 0

/-- Read a little-endian 32-bit value at offset `i` of a byte list. -/
def readLE32 (l : List Nat) (i : Nat) : Nat :=
  l.getD i 0 + 256 * l.getD (i + 1) 0 + 65536 * l.getD (i + 2) 0 +
    16777216 * l.getD (i + 3) 0

/-- Flip bit `p` of a byte stream: bit `p % 8` of byte `p / 8`. -/
def flipBit (l : List Nat) (p : Nat) : List Nat :=
  l.set (p / 8) (l.getD (p / 8) 0 ^^^ (1 <<< (p % 8)))

/-- Fit a byte list to exactly `n` bytes, zero-padding on the right.
Used for fixed-width record fields. -/
def fit (n : Nat) (l : List Nat) : List Nat :=
  (l ++ List.replicate n 0).take n

/-! ## CRC-16-CCITT

Modelled from the spec: polynomial 0x1021, initial value 0xFFFF, no
reflection, no final XOR; byte-wise update, exposed as start / update /
finish over a 16-bit running state. -/

/-- Process one bit of the CRC-16 state: shift left within 16 bits, and
XOR the polynomial when the bit shifted out was set. -/
def crc16_bit (s : Nat) : Nat :=
  ((s <<< 1) &&& 0xFFFF) ^^^ (if s.testBit 15 then 0x1021 else 0)

/-- Iterate the CRC-16 bit step `n` times. -/
def crc16_bits : Nat → Nat → Nat
  | 0, s => s
  | n + 1, s => crc16_bits n (crc16_bit s)

/-- Initial CRC-16 state. -/
def crc16_start : Nat := 0xFFFF

/-- Feed one byte into the CRC-16 state. -/
def crc16_upd1 (s b : Nat) : Nat := crc16_bits 8 (s ^^^ ((b &&& 0xFF) <<< 8))

/-- Feed a run of bytes into the CRC-16 state (supports non-contiguous runs
by chaining calls). -/
def crc16_update (s : Nat) (l : List Nat) : Nat := l.foldl crc16_upd1 s

/-- Extract the final 16-bit CRC value (no final XOR). -/
def crc16_finish (s : Nat) : Nat := s &&& 0xFFFF

/-- CRC-16-CCITT of a byte list. -/
def crc16 (l : List Nat) : Nat := crc16_finish (crc16_update crc16_start l)

/-! ## CRC-32

Modelled from the spec: polynomial 0xEDB88320 (reflected 0x04C11DB7),
initial value 0xFFFFFFFF, reflected in/out, final XOR 0xFFFFFFFF. -/

/-- Process one bit of the CRC-32 state: shift right, and XOR the
reflected polynomial when the bit shifted out was set. -/
def crc32_bit (s : Nat) : Nat :=
  (s >>> 1) ^^^ (if s.testBit 0 then 0xEDB88320 else 0)

/-- Iterate the CRC-32 bit step `n` times. -/
def crc32_bits : Nat → Nat → Nat
  | 0, s => s
  | n + 1, s => crc32_bits n (crc32_bit s)

/-- Initial CRC-32 state. -/
def crc32_start : Nat := 0xFFFFFFFF

/-- Feed one byte into the CRC-32 state. -/
def crc32_upd1 (s b : Nat) : Nat := crc32_bits 8 (s ^^^ (b &&& 0xFF))

/-- Feed a run of bytes into the CRC-32 state. -/
def crc32_update (s : Nat) (l : List Nat) : Nat := l.foldl crc32_upd1 s

/-- Extract the final CRC-32 value (final XOR with 0xFFFFFFFF). -/
def crc32_finish (s : Nat) : Nat := s ^^^ 0xFFFFFFFF

/-- CRC-32 of a byte list. -/
def crc32 (l : List Nat) : Nat := crc32_finish (crc32_update crc32_start l)

-- Reference check vectors: CRC-16/CCITT-FALSE and CRC-32 of "123456789".
example : crc16 [49, 50, 51, 52, 53, 54, 55, 56, 57] = 0x29B1 := by decide
example : crc32 [49, 50, 51, 52, 53, 54, 55, 56, 57] = 0xCBF43926 := by decide

/-! ## Packet flags and status codes -/

/-- ACK flag (bit 0 of FLAGS). -/
def FLAG_ACK : Nat := 1
/-- NAK flag (bit 1 of FLAGS). -/
def FLAG_NAK : Nat := 2
/-- RTX flag (bit 2 of FLAGS). -/
def FLAG_RTX : Nat := 4
/-- ACK_REQ flag (bit 3 of FLAGS). -/
def FLAG_ACK_REQ : Nat := 8
/-- FRAGMENT flag (bit 4 of FLAGS). -/
def FLAG_FRAGMENT : Nat := 16
/-- EVENT flag (bit 5 of FLAGS). -/
def FLAG_EVENT : Nat := 32

/-- Test whether a FLAGS byte has a given flag bit set. -/
def hasFlag (flags bit : Nat) : Bool := flags &&& bit != 0

/-- Status codes of the protocol. -/
inductive Status where
  | success | failed | invalid | timeout | busy
  | checksum | sequence | overflow | fragment | unknown
  deriving DecidableEq, Repr

/-- Numeric value of a status code. -/
def Status.code : Status → Nat
  | .success => 0 | .failed => 1 | .invalid => 2 | .timeout => 3 | .busy => 4
  | .checksum => 5 | .sequence => 6 | .overflow => 7 | .fragment => 8
  | .unknown => 9

/-! ## Wire codec

Modelled from the spec: the 10-byte header is SYNC(2) = 0xD5 0xAA, SEQ(1),
CHAN(1), FLAGS(1), OPCODE(1), LENGTH(2, little-endian), CRC(2, CRC-16 over
bytes 0..7, little-endian); an optional payload of LENGTH bytes follows,
and a 4-byte little-endian CRC-32 over the payload is present iff
LENGTH > 0. -/

/-- Parsed header fields. -/
structure Header where
  seq : Nat
  chan : Nat
  flags : Nat
  opcode : Nat
  length : Nat
  deriving DecidableEq, Repr

/-- Header bytes 0..7, before the header CRC. -/
def headerBody (seq chan flags opcode len : Nat) : List Nat :=
  [0xD5, 0xAA, seq % 256, chan % 256, flags % 256, opcode % 256,
   len % 256, len / 256 % 256]

/-- Encode the 10-byte header: bytes 0..7 followed by their CRC-16 at
bytes 8..9. -/
def encode_header (seq chan flags opcode len : Nat) : List Nat :=
  let b := headerBody seq chan flags opcode len
  b ++ le16 (crc16 b)

/-- Encode a complete frame: header, payload, and — iff the payload is
non-empty — the 4-byte CRC-32 of the payload. -/
def encode (seq chan flags opcode : Nat) (payload : List Nat) : List Nat :=
  encode_header seq chan flags opcode payload.length ++ payload ++
    (if payload.length = 0 then [] else le32 (crc32 payload))

/-- Decode errors. `invalidSync` and `checksum` are the two failure results
of the spec's `decode_header`; `incomplete` models a frame whose byte count
does not match its LENGTH field (the receive state machine would keep
waiting for bytes and eventually time out). -/
inductive DecodeError where
  | invalidSync | checksum | incomplete
  deriving DecidableEq, Repr

/-- Decode a complete frame: validate SYNC, header CRC-16 over bytes 0..7
against bytes 8..9, then the payload CRC-32 when LENGTH > 0. -/
def decode (l : List Nat) : Except DecodeError (Header × List Nat) :=
  if l.length < 10 then .error .incomplete
  else if ¬(l.getD 0 0 = 0xD5 ∧ l.getD 1 0 = 0xAA) then .error .invalidSync
  else if readLE16 l 8 ≠ crc16 (l.take 8) then .error .checksum
  else
    let len := readLE16 l 6
    let hdr : Header :=
      ⟨l.getD 2 0, l.getD 3 0, l.getD 4 0, l.getD 5 0, len⟩
    if len = 0 then
      if l.length = 10 then .ok (hdr, []) else .error .incomplete
    else if l.length = 10 + len + 4 then
      let payload := (l.drop 10).take len
      if readLE32 l (10 + len) ≠ crc32 payload then .error .checksum
      else .ok (hdr, payload)
    else .error .incomplete

-- Sanity: round trip of a small concrete frame, and a concrete bit flip.
example : decode (encode 7 2 8 0x26 [1, 2, 3]) =
    .ok (⟨7, 2, 8, 0x26, 3⟩, [1, 2, 3]) := rfl
example : decode (encode 0 0 0 0 []) = .ok (⟨0, 0, 0, 0, 0⟩, []) := rfl
example : decode (flipBit (encode 0 0 0 0 []) 3) = .error .invalidSync := rfl
example : decode (flipBit (encode 0 0 0 0 []) 20) = .error .checksum := rfl
example : decode (flipBit (encode 7 2 8 0x26 [1, 2, 3]) 85) =
    .error .checksum := rfl

/-! ## Fragmentation and reassembly

Modelled from the spec: an outbound payload larger than `max_payload` is
split into chunks of at most `max_payload` bytes; all chunks but the last
set FRAGMENT, every chunk carries the same `(channel, opcode)` and an
incrementing SEQ.  Inbound, payloads of FRAGMENT frames are appended to the
reassembly buffer keyed by `(channel, opcode)`; the frame with FRAGMENT
clear completes the reassembly and the concatenation is dispatched.
A `(channel, opcode)` mismatch mid-reassembly, or exceeding the buffer
capacity, is a FRAGMENT error and discards the buffer. -/

/-- A frame before wire encoding. -/
structure Frame where
  seq : Nat
  chan : Nat
  flags : Nat
  opcode : Nat
  payload : List Nat
  deriving DecidableEq, Repr

/-- Split a payload into chunks of at most `maxp` bytes (the whole payload
as one chunk when `maxp = 0`, a case the protocol never uses). -/
def chunks (maxp : Nat) (l : List Nat) : List (List Nat) :=
  if h : l.length ≤ maxp ∨ maxp = 0 then [l]
  else l.take maxp :: chunks maxp (l.drop maxp)
termination_by l.length
decreasing_by
  simp only [not_or] at h
  simp only [List.length_drop]
  omega

/-- Emit the fragment frames of one payload: chunk `i` carries sequence
number `(seq + i) % 256`, FRAGMENT set on all but the last chunk. -/
def fragFrames (chan opcode seq : Nat) : List (List Nat) → List Frame
  | [] => []
  | [c] => [⟨seq % 256, chan, 0, opcode, c⟩]
  | c :: c2 :: cs =>
    ⟨seq % 256, chan, FLAG_FRAGMENT, opcode, c⟩ ::
      fragFrames chan opcode (seq + 1) (c2 :: cs)

/-- Fragment an outbound payload. -/
def fragment (chan opcode seq maxp : Nat) (payload : List Nat) : List Frame :=
  fragFrames chan opcode seq (chunks maxp payload)

/-- Reassembly buffer state: the `(channel, opcode)` key and the bytes
accumulated so far. -/
structure Reasm where
  chan : Nat
  opcode : Nat
  buf : List Nat
  deriving DecidableEq, Repr

/-- Result of feeding one frame to the reassembler. -/
inductive ReasmOut where
  /-- Mid-reassembly; nothing to dispatch yet. -/
  | pending
  /-- Final fragment received: dispatch the concatenated payload. -/
  | done (chan opcode : Nat) (payload : List Nat)
  /-- FRAGMENT error: key mismatch mid-reassembly or capacity overflow. -/
  | error
  deriving Repr

/-- Feed one inbound frame to the reassembler.  `cap` is the reassembly
buffer capacity in bytes. -/
def reasmStep (cap : Nat) (st : Option Reasm) (f : Frame) :
    Option Reasm × ReasmOut :=
  let acc : Reasm :=
    match st with
    | none => ⟨f.chan, f.opcode, []⟩
    | some r => r
  if acc.chan ≠ f.chan ∨ acc.opcode ≠ f.opcode then (none, .error)
  else if cap < acc.buf.length + f.payload.length then (none, .error)
  else if hasFlag f.flags FLAG_FRAGMENT then
    (some ⟨acc.chan, acc.opcode, acc.buf ++ f.payload⟩, .pending)
  else (none, .done acc.chan acc.opcode (acc.buf ++ f.payload))

/-- Feed a list of frames to the reassembler, collecting every dispatch. -/
def reasmRun (cap : Nat) (st : Option Reasm) :
    List Frame → Option Reasm × List ReasmOut
  | [] => (st, [])
  | f :: fs =>
    let (st1, out) := reasmStep cap st f
    let (st2, outs) := reasmRun cap st1 fs
    (st2, out :: outs)

/-! ## Protocol capabilities

Modelled from the spec: the 16-byte capability record holds a 4-byte flag
word (bit 0 CRC, bit 1 sequence, bit 2 ACK, bit 3 events), a 2-byte
`max_payload`, and 10 reserved bytes.  PROTO_SET_CAPS validates the request
and clamps `max_payload` into [50, 4082]. -/

/-- Negotiated protocol capabilities. -/
structure Caps where
  crc : Bool
  seq : Bool
  ack : Bool
  events : Bool
  max_payload : Nat
  deriving DecidableEq, Repr

/-- Default capabilities: everything enabled, max payload 4082 bytes. -/
def defaultCaps : Caps := ⟨true, true, true, true, 4082⟩

/-- Smallest negotiable max payload (64-byte buffer minus overhead). -/
def MIN_PAYLOAD : Nat := 50

/-- Largest negotiable max payload (4096-byte buffer minus overhead). -/
def MAX_PAYLOAD : Nat := 4082

/-- Encode the capability flag word. -/
def capsFlagWord (c : Caps) : Nat :=
  (if c.crc then 1 else 0) + (if c.seq then 2 else 0) +
    (if c.ack then 4 else 0) + (if c.events then 8 else 0)

/-- Encode a capability record as its 16-byte wire form. -/
def encodeCaps (c : Caps) : List Nat :=
  le32 (capsFlagWord c) ++ le16 c.max_payload ++ List.replicate 10 0

/-- Decode a 16-byte capability record. -/
def decodeCaps (l : List Nat) : Caps :=
  let w := readLE32 l 0
  ⟨w.testBit 0, w.testBit 1, w.testBit 2, w.testBit 3, readLE16 l 4⟩

/-- Clamp a requested max payload into the legal range [50, 4082]. -/
def clampPayload (n : Nat) : Nat := max MIN_PAYLOAD (min n MAX_PAYLOAD)

/-- Handle PROTO_SET_CAPS: decode the request, clamp `max_payload`, and
return the accepted capabilities together with the response payload, which
echoes exactly the accepted values. -/
def procSetCaps (req : List Nat) : Caps × List Nat :=
  let r := decodeCaps req
  let acc : Caps := ⟨r.crc, r.seq, r.ack, r.events, clampPayload r.max_payload⟩
  (acc, encodeCaps acc)

/-- Handle PROTO_GET_CAPS: the response payload is the current 16-byte
capability record. -/
def procGetCaps (c : Caps) : List Nat := encodeCaps c

/-! ## Sequence / ACK engine

Modelled from the spec: each side keeps `tx_seq` and `rx_seq`
independently; `rx_seq` is `none` until the first accepted packet.  On
transmit of a non-RTX frame the current `tx_seq` is emitted and then
incremented mod 256; RTX resends keep their original sequence number.  On
receive, RTX frames bypass the sequence check and do not advance `rx_seq`;
a duplicate (SEQ equal to `rx_seq`) is silently re-ACKed without being
dispatched again; any other SEQ different from `(rx_seq + 1) % 256`
increments `sequence_errors` and produces NAK(SEQUENCE). -/

/-- Statistics counters of the protocol (section 4.2 of the spec). -/
structure Stats where
  sent_packets : Nat := 0
  recv_packets : Nat := 0
  checksum_errors : Nat := 0
  sequence_errors : Nat := 0
  retransmit : Nat := 0
  transport_errors : Nat := 0
  sent_events : Nat := 0
  max_ack_queue_depth : Nat := 0
  deriving DecidableEq, Repr

/-- An entry of the retransmission queue. -/
structure RtxEntry where
  frame : Frame
  retries : Nat
  timeout : Nat
  deriving DecidableEq, Repr

/-- State of the protocol engine. -/
structure ProtoState where
  tx_seq : Nat
  rx_seq : Option Nat
  caps : Caps
  stats : Stats
  rtx_queue : List RtxEntry
  reasm_buf : Option Reasm
  deriving Repr

/-- Actions the receive path can produce. -/
inductive RecvAction where
  /-- Hand the frame to the dispatcher. -/
  | dispatch (f : Frame)
  /-- Send (or re-send) an acknowledgment. -/
  | sendAck
  /-- Send a negative acknowledgment with a status code. -/
  | sendNak (s : Status)
  deriving DecidableEq, Repr

/-- Transmit one outbound frame: a non-RTX frame is stamped with the
current `tx_seq`, which then increments mod 256; an RTX resend keeps the
sequence number it already carries. -/
def protoTransmit (st : ProtoState) (f : Frame) : ProtoState × Frame :=
  if hasFlag f.flags FLAG_RTX then (st, f)
  else ({st with tx_seq := (st.tx_seq + 1) % 256},
        {f with seq := st.tx_seq})

/-- Iterate `protoTransmit` over a list of outbound frames. -/
def protoTransmitAll (st : ProtoState) : List Frame → ProtoState × List Frame
  | [] => (st, [])
  | f :: fs =>
    let (st1, w) := protoTransmit st f
    let (st2, ws) := protoTransmitAll st1 fs
    (st2, w :: ws)

/-- Receive one validated inbound frame and run the sequence check. -/
def protoRecv (st : ProtoState) (f : Frame) : ProtoState × List RecvAction :=
  if hasFlag f.flags FLAG_RTX then
    (st, [.dispatch f])
  else
    match st.rx_seq with
    | none => ({st with rx_seq := some f.seq}, [.dispatch f])
    | some r =>
      if f.seq = r then (st, [.sendAck])
      else if f.seq = (r + 1) % 256 then
        ({st with rx_seq := some f.seq}, [.dispatch f])
      else
        ({st with stats := {st.stats with
            sequence_errors := st.stats.sequence_errors + 1}},
         [.sendNak .sequence])

/-! ## PROTO_SYNC

Modelled from the spec: respond with a 2-byte status 0x0000, then reset
`tx_seq`, `rx_seq`, the reassembly buffer and the rtx queue only after the
response transmits. -/

/-- Observable steps of a command handler, in the order they happen. -/
inductive HandlerStep where
  /-- A frame is handed to the transmit path. -/
  | txFrame (f : Frame)
  /-- The protocol state is reset. -/
  | reset
  deriving DecidableEq, Repr

/-- Reset the protocol state: both sequence counters, the reassembly
buffer, and the rtx queue. -/
def protoReset (st : ProtoState) : ProtoState :=
  {st with tx_seq := 0, rx_seq := none, reasm_buf := none, rtx_queue := []}

/-- Handle PROTO_SYNC: transmit the 2-byte SUCCESS status response first —
stamped with the pre-reset `tx_seq` — and reset the protocol state only
afterwards. -/
def procSync (st : ProtoState) : List HandlerStep × ProtoState :=
  let resp : Frame := ⟨st.tx_seq, 0, FLAG_ACK, 0x00, [0, 0]⟩
  ([.txFrame resp, .reset],
   protoReset {st with tx_seq := (st.tx_seq + 1) % 256})

/-! ## Retransmission

Modelled from the spec: a sent frame whose FLAGS has ACK_REQ enters the
rtx queue with 3 retries remaining and a 500 ms deadline.  On each timeout
the frame is re-sent with the RTX flag set, `retries_remaining` decreases
by one and the timeout doubles; when retries reach zero the entry is
dropped, `transport_errors` is incremented, and failure is reported to the
originator. -/

/-- Default number of retransmissions. -/
def RTX_RETRIES : Nat := 3

/-- Default initial retransmission timeout in milliseconds. -/
def RTX_TIMEOUT_MS : Nat := 500

/-- Set the RTX flag of a frame. -/
def setRtx (f : Frame) : Frame := {f with flags := f.flags ||| FLAG_RTX}

/-- Outcome of running an rtx queue entry to exhaustion with no ACK:
the wire frames with the timeout that elapsed before each, whether the
entry was dropped, how much `transport_errors` grew, and whether failure
was reported to the originator. -/
structure RtxOutcome where
  wire : List (Frame × Nat)
  dropped : Bool
  transport_error_increments : Nat
  failure_reported : Bool
  deriving DecidableEq, Repr

/-- Fire consecutive timeouts on an rtx queue entry that never gets an
ACK, until the entry is dropped.  Recursion is on the retries counter:
each timeout with retries left re-sends with RTX set and doubles the
timeout; the timeout hit with zero retries left drops the entry. -/
def rtxDrain (f : Frame) : Nat → Nat → RtxOutcome
  | 0, _t => ⟨[], true, 1, true⟩
  | r + 1, t =>
    let out := rtxDrain (setRtx f) r (2 * t)
    ⟨(setRtx f, t) :: out.wire, out.dropped,
     out.transport_error_increments, out.failure_reported⟩

/-- Send a frame with ACK_REQ and never deliver an ACK: the original
frame goes on the wire immediately, then the rtx queue entry (3 retries,
500 ms) drains through its timeouts. -/
def sendNoAck (f : Frame) : RtxOutcome :=
  let out := rtxDrain f RTX_RETRIES RTX_TIMEOUT_MS
  ⟨(f, 0) :: out.wire, out.dropped, out.transport_error_increments,
   out.failure_reported⟩

/-! ## Event emitter

Modelled from the spec: an outbound event is emitted iff `caps.events` is
true, the transport is ready, and the ACK queue has headroom.  Events set
the EVENT flag, never set ACK_REQ, and are never placed on the rtx queue;
a dropped event is not retried. -/

/-- Emit one event frame.  Returns the emitted frame (or `none` when the
event is dropped) and the rtx queue, which is never touched. -/
def emitEvent (caps : Caps) (transport_ready ack_headroom : Bool)
    (chan opcode : Nat) (payload : List Nat) (rtxq : List RtxEntry) :
    Option Frame × List RtxEntry :=
  if caps.events ∧ transport_ready ∧ ack_headroom then
    (some ⟨0, chan, FLAG_EVENT, opcode, payload⟩, rtxq)
  else (none, rtxq)

/-! ## SYS_INFO

Modelled from the spec: the 80-byte identification record.  The firmware
version constants are `FIRMWARE_VERSION_MAJOR/MINOR/PATCH` from
`common/usbdbg.h`; the protocol version is 1.0.0. -/

/-- Firmware major version, from `common/usbdbg.h`. -/
def FIRMWARE_VERSION_MAJOR : Nat := 4

/-- Firmware minor version, from `common/usbdbg.h`. -/
def FIRMWARE_VERSION_MINOR : Nat := 7

/-- Firmware patch version, from `common/usbdbg.h`. -/
def FIRMWARE_VERSION_PATCH : Nat := 0

/-- Protocol version bytes 1.0.0. -/
def PROTOCOL_VERSION : List Nat := [1, 0, 0]

/-- Device-specific inputs of the SYS_INFO record. -/
structure SysInfoInput where
  cpu_id : Nat
  dev_id : List Nat
  chip_id : List Nat
  hw_caps : Nat
  flash_size_kb : Nat
  ram_size_kb : Nat
  framebuffer_size_kb : Nat
  stream_buffer_size_kb : Nat
  bootloader_version : List Nat

/-- Build the 80-byte SYS_INFO identification record. -/
def sysInfoRecord (i : SysInfoInput) : List Nat :=
  le32 i.cpu_id ++ fit 12 i.dev_id ++ fit 12 i.chip_id ++
    List.replicate 8 0 ++ fit 8 (le32 i.hw_caps) ++
    le32 i.flash_size_kb ++ le32 i.ram_size_kb ++
    le32 i.framebuffer_size_kb ++ le32 i.stream_buffer_size_kb ++
    List.replicate 8 0 ++
    [FIRMWARE_VERSION_MAJOR, FIRMWARE_VERSION_MINOR, FIRMWARE_VERSION_PATCH] ++
    PROTOCOL_VERSION ++ fit 3 i.bootloader_version ++ List.replicate 3 0

/-! ## framebuffer_reset

Embedded from `framebuffer.h`: `vbuffer_t` is `int32_t offset` at byte 0,
`uint32_t flags` at byte 4, and the aligned flexible member `data` at byte
`offsetof(vbuffer_t, data)` (at least 8; larger when `FRAMEBUFFER_ALIGNMENT`
pads the header).  `framebuffer_reset` is
`memset(buffer, 0, offsetof(vbuffer_t, data))`. -/

/-- Write `n` zero bytes at the start of a byte region, leaving the rest
unchanged: the semantics of `memset(p, 0, n)` on a region of at least `n`
bytes. -/
def memsetZero (n : Nat) (m : List Nat) : List Nat :=
  List.replicate (min n m.length) 0 ++ m.drop n

/-- Reset a vbuffer region whose `data` member starts at byte `dataOff`:
`memset(buffer, 0, offsetof(vbuffer_t, data))`. -/
def framebuffer_reset (dataOff : Nat) (m : List Nat) : List Nat :=
  memsetZero dataOff m

/-- Read the `offset` field of a vbuffer region (little-endian u32 image
of the `int32_t` at byte 0). -/
def vbufferOffset (m : List Nat) : Nat := readLE32 m 0

/-- Read the `flags` field of a vbuffer region (u32 at byte 4). -/
def vbufferFlags (m : List Nat) : Nat := readLE32 m 4

/-- Read the `data` member of a vbuffer region. -/
def vbufferData (dataOff : Nat) (m : List Nat) : List Nat := m.drop dataOff

/-- A protocol state used to instantiate witnesses. -/
def initState : ProtoState :=
  ⟨0, none, defaultCaps, {}, [], none⟩

/-! ## Bitwise helper lemmas -/

/-- Left shift followed by a mask distributes over XOR. -/
theorem shiftLeft_and_xor (a b M : Nat) :
    ((a ^^^ b) <<< 1) &&& M = ((a <<< 1) &&& M) ^^^ ((b <<< 1) &&& M) := by
  apply Nat.eq_of_testBit_eq
  intro i
  simp only [Nat.testBit_land, Nat.testBit_xor, Nat.testBit_shiftLeft]
  cases h1 : a.testBit (i - 1) <;> cases h2 : b.testBit (i - 1) <;>
    cases h3 : M.testBit i <;> cases h4 : decide (i ≥ 1) <;> rfl

/-- Right shift distributes over XOR. -/
theorem shiftRight_xor (a b : Nat) :
    (a ^^^ b) >>> 1 = (a >>> 1) ^^^ (b >>> 1) := by
  apply Nat.eq_of_testBit_eq
  intro i
  simp [Nat.testBit_shiftRight, Nat.testBit_xor]

/-- Masking distributes over XOR. -/
theorem and_xor_right (a b M : Nat) :
    (a ^^^ b) &&& M = (a &&& M) ^^^ (b &&& M) := by
  apply Nat.eq_of_testBit_eq
  intro i
  simp only [Nat.testBit_land, Nat.testBit_xor]
  cases h1 : a.testBit i <;> cases h2 : b.testBit i <;>
    cases h3 : M.testBit i <;> rfl

/-- A conditional XOR constant distributes over Bool XOR of the guards. -/
theorem ite_xor_guard (P : Nat) (p q : Bool) :
    (if p.xor q then P else 0) = (if p then P else 0) ^^^ (if q then P else 0) := by
  cases p <;> cases q <;> simp [Nat.xor_self]

/-- Rearrange a four-way XOR. -/
theorem xor_xor_comm (x y z w : Nat) :
    (x ^^^ y) ^^^ (z ^^^ w) = (x ^^^ z) ^^^ (y ^^^ w) := by
  rw [Nat.xor_assoc, Nat.xor_assoc, ← Nat.xor_assoc y, ← Nat.xor_assoc z,
    Nat.xor_comm y z]

/-- XOR with a non-zero value changes a number. -/
theorem xor_ne_of_ne_zero {d : Nat} (x : Nat) (hd : d ≠ 0) : x ^^^ d ≠ x := by
  intro h
  have h2 : x ^^^ (x ^^^ d) = x ^^^ x := congrArg (fun y => x ^^^ y) h
  rw [← Nat.xor_assoc, Nat.xor_self, Nat.zero_xor] at h2
  exact hd h2

/-- A value below `2 ^ 8` is unchanged by the 0xFF mask. -/
theorem and_ff_of_lt {b : Nat} (hb : b < 256) : b &&& 0xFF = b := by
  have h := Nat.and_pow_two_sub_one_eq_mod b 8
  norm_num at h
  omega

/-- A value below `2 ^ 16` is unchanged by the 0xFFFF mask. -/
theorem and_ffff_of_lt {b : Nat} (hb : b < 65536) : b &&& 0xFFFF = b := by
  have h := Nat.and_pow_two_sub_one_eq_mod b 16
  norm_num at h
  omega

/-! ## CRC-16 theory: linearity and error propagation -/

/-- The CRC-16 bit step is GF(2)-linear. -/
theorem crc16_bit_xor (a b : Nat) :
    crc16_bit (a ^^^ b) = crc16_bit a ^^^ crc16_bit b := by
  unfold crc16_bit
  rw [Nat.testBit_xor, shiftLeft_and_xor, ite_xor_guard, xor_xor_comm]

/-- The CRC-16 bit step keeps the state within 16 bits. -/
theorem crc16_bit_lt (s : Nat) : crc16_bit s < 65536 := by
  unfold crc16_bit
  have h1 : (s <<< 1) &&& 0xFFFF < 65536 :=
    Nat.and_lt_two_pow _ (by norm_num : (0xFFFF : Nat) < 2 ^ 16)
  have h2 : (if s.testBit 15 then 0x1021 else 0) < 65536 := by
    split <;> norm_num
  have := Nat.xor_lt_two_pow (n := 16) (by simpa using h1) (by simpa using h2)
  simpa using this

/-- Only the zero state maps to zero under the CRC-16 bit step. -/
theorem crc16_bit_eq_zero {s : Nat} (hs : s < 65536) (h : crc16_bit s = 0) :
    s = 0 := by
  unfold crc16_bit at h
  by_cases h15 : s.testBit 15
  · exfalso
    rw [if_pos h15] at h
    have := congrArg (fun x => x.testBit 0) h
    simp only [Nat.testBit_xor, Nat.testBit_land, Nat.testBit_shiftLeft] at this
    simp at this
  · rw [if_neg h15, Nat.xor_zero] at h
    apply Nat.eq_of_testBit_eq
    intro i
    rcases lt_trichotomy i 15 with hi | hi | hi
    · have := congrArg (fun x => x.testBit (i + 1)) h
      simp only [Nat.testBit_land, Nat.testBit_shiftLeft, Nat.zero_testBit] at this
      have h16 : (0xFFFF : Nat).testBit (i + 1) = true := by
        have : i + 1 < 16 := by omega
        interval_cases i <;> rfl
      simp [h16, Nat.add_sub_cancel] at this
      simp [this]
    · simp [hi, h15]
    · have : s < 2 ^ i := lt_of_lt_of_le hs (by
        have : 16 ≤ i := by omega
        calc (65536 : Nat) = 2 ^ 16 := by norm_num
          _ ≤ 2 ^ i := Nat.pow_le_pow_right (by norm_num) this)
      simp [Nat.testBit_eq_false_of_lt this]

/-- Iterated CRC-16 bit steps compose additively. -/
theorem crc16_bits_add (m n s : Nat) :
    crc16_bits (m + n) s = crc16_bits n (crc16_bits m s) := by
  induction m generalizing s with
  | zero => simp [crc16_bits]
  | succ m ih =>
    have : m + 1 + n = (m + n) + 1 := by omega
    rw [this]
    simp only [crc16_bits]
    rw [ih]

/-- Iterated CRC-16 bit steps are GF(2)-linear. -/
theorem crc16_bits_xor (n a b : Nat) :
    crc16_bits n (a ^^^ b) = crc16_bits n a ^^^ crc16_bits n b := by
  induction n generalizing a b with
  | zero => rfl
  | succ n ih => simp only [crc16_bits]; rw [crc16_bit_xor]; exact ih _ _

/-- Iterated CRC-16 bit steps keep the state within 16 bits. -/
theorem crc16_bits_lt {s : Nat} (n : Nat) (hs : s < 65536) :
    crc16_bits n s < 65536 := by
  induction n generalizing s with
  | zero => exact hs
  | succ n ih => exact ih (crc16_bit_lt s)

/-- Iterated CRC-16 bit steps map only zero to zero. -/
theorem crc16_bits_eq_zero {n s : Nat} (hs : s < 65536)
    (h : crc16_bits n s = 0) : s = 0 := by
  induction n generalizing s with
  | zero => exact h
  | succ n ih => exact crc16_bit_eq_zero hs (ih (crc16_bit_lt s) h)

/-- Left shift distributes over XOR. -/
theorem shiftLeft_xor_distrib (a b n : Nat) :
    (a ^^^ b) <<< n = (a <<< n) ^^^ (b <<< n) := by
  apply Nat.eq_of_testBit_eq
  intro i
  simp only [Nat.testBit_shiftLeft, Nat.testBit_xor]
  cases h1 : a.testBit (i - n) <;> cases h2 : b.testBit (i - n) <;>
    cases h3 : decide (i ≥ n) <;> rfl

/-- The CRC-16 update over concatenated byte runs is sequential. -/
theorem crc16_update_append (s : Nat) (a b : List Nat) :
    crc16_update s (a ++ b) = crc16_update (crc16_update s a) b := by
  simp [crc16_update, List.foldl_append]

/-- An XOR perturbation of the CRC-16 state passes through one byte
update as eight bit steps on the perturbation. -/
theorem crc16_upd1_xor (s e b : Nat) :
    crc16_upd1 (s ^^^ e) b = crc16_upd1 s b ^^^ crc16_bits 8 e := by
  unfold crc16_upd1
  rw [Nat.xor_assoc, Nat.xor_comm e, ← Nat.xor_assoc, crc16_bits_xor]

/-- An XOR perturbation of the CRC-16 state passes through a whole run as
eight bit steps per byte. -/
theorem crc16_update_xor (l : List Nat) (s e : Nat) :
    crc16_update (s ^^^ e) l =
      crc16_update s l ^^^ crc16_bits (8 * l.length) e := by
  induction l generalizing s e with
  | nil => simp [crc16_update, crc16_bits]
  | cons b bs ih =>
    simp only [crc16_update, List.foldl_cons, List.length_cons]
    rw [show crc16_upd1 (s ^^^ e) b = crc16_upd1 s b ^^^ crc16_bits 8 e from
      crc16_upd1_xor s e b]
    have h2 := ih (crc16_upd1 s b) (crc16_bits 8 e)
    simp only [crc16_update] at h2
    rw [h2, ← crc16_bits_add]
    congr 2
    omega

/-- Flipping bit `k` of an input byte XORs `2 ^ (k + 8)` into the CRC-16
state before its eight bit steps. -/
theorem crc16_upd1_flip (s b k : Nat) (hb : b < 256) (hk : k < 8) :
    crc16_upd1 s (b ^^^ 2 ^ k) = crc16_upd1 s b ^^^ crc16_bits 8 (2 ^ (k + 8)) := by
  unfold crc16_upd1
  have hp : (2 : Nat) ^ k < 256 := by
    calc (2 : Nat) ^ k < 2 ^ 8 := Nat.pow_lt_pow_right (by norm_num) hk
      _ = 256 := by norm_num
  have hbk : b ^^^ 2 ^ k < 256 := by
    have := Nat.xor_lt_two_pow (n := 8) (by simpa using hb) (by simpa using hp)
    simpa using this
  rw [and_ff_of_lt hbk, and_ff_of_lt hb, shiftLeft_xor_distrib]
  have h28 : (2 : Nat) ^ k <<< 8 = 2 ^ (k + 8) := by
    rw [Nat.shiftLeft_eq, ← Nat.pow_add]
  rw [h28, ← Nat.xor_assoc, crc16_bits_xor]

/-- The CRC-16 state stays within 16 bits along any byte run. -/
theorem crc16_update_lt (l : List Nat) {s : Nat} (hs : s < 65536) :
    crc16_update s l < 65536 := by
  induction l generalizing s with
  | nil => exact hs
  | cons b bs ih =>
    apply ih
    unfold crc16_upd1
    apply crc16_bits_lt
    have h1 : (b &&& 0xFF) <<< 8 < 65536 := by
      have h2 : b &&& 0xFF < 256 :=
        Nat.and_lt_two_pow _ (by norm_num : (0xFF : Nat) < 2 ^ 8)
      rw [Nat.shiftLeft_eq]
      norm_num
      omega
    have := Nat.xor_lt_two_pow (n := 16) (by simpa using hs) (by simpa using h1)
    simpa using this

/-- The CRC-16 value is always below `2 ^ 16`. -/
theorem crc16_lt (l : List Nat) : crc16 l < 65536 := by
  unfold crc16 crc16_finish
  exact Nat.and_lt_two_pow _ (by norm_num : (0xFFFF : Nat) < 2 ^ 16)

/-- Flipping a single bit of a single byte changes the CRC-16. -/
theorem crc16_set_ne (l : List Nat) (i k : Nat)
    (hb : l.getD i 0 < 256) (hi : i < l.length) (hk : k < 8) :
    crc16 (l.set i (l.getD i 0 ^^^ 2 ^ k)) ≠ crc16 l := by
  have hbget : l.getD i 0 = l[i] := by
    simp [List.getD_eq_getElem?_getD, List.getElem?_eq_getElem hi]
  have hdecomp : l = l.take i ++ l[i] :: l.drop (i + 1) := by
    conv_lhs => rw [← List.take_append_drop i l]
    rw [List.drop_eq_getElem_cons hi]
  have hset : l.set i (l.getD i 0 ^^^ 2 ^ k) =
      l.take i ++ (l.getD i 0 ^^^ 2 ^ k) :: l.drop (i + 1) := by
    rw [List.set_eq_take_append_cons_drop]
    rw [if_pos hi]
  set A := l.take i
  set B := l.drop (i + 1)
  set b := l.getD i 0 with hbdef
  have hu : crc16_start < 65536 := by norm_num [crc16_start]
  set u := crc16_update crc16_start A with hudef
  have hulto : u < 65536 := crc16_update_lt A hu
  have hF : crc16_update crc16_start l =
      crc16_update (crc16_upd1 u b) B := by
    conv_lhs => rw [hdecomp]
    rw [crc16_update_append]
    simp only [crc16_update, List.foldl_cons, ← hbget]
    rfl
  have hFlip : crc16_update crc16_start (l.set i (b ^^^ 2 ^ k)) =
      crc16_update (crc16_upd1 u b) B ^^^
        crc16_bits (8 + 8 * B.length) (2 ^ (k + 8)) := by
    rw [hset, crc16_update_append]
    simp only [crc16_update, List.foldl_cons]
    have huf : List.foldl crc16_upd1 crc16_start A = u := rfl
    rw [huf]
    rw [show crc16_upd1 u (b ^^^ 2 ^ k) =
        crc16_upd1 u b ^^^ crc16_bits 8 (2 ^ (k + 8)) from
      crc16_upd1_flip u b k hb hk]
    have h2 := crc16_update_xor B (crc16_upd1 u b) (crc16_bits 8 (2 ^ (k + 8)))
    simp only [crc16_update] at h2
    rw [h2, ← crc16_bits_add]
  have hE : crc16_bits (8 + 8 * B.length) (2 ^ (k + 8)) ≠ 0 := by
    intro h0
    have hin : (2 : Nat) ^ (k + 8) < 65536 := by
      calc (2 : Nat) ^ (k + 8) < 2 ^ 16 :=
            Nat.pow_lt_pow_right (by norm_num) (by omega)
        _ = 65536 := by norm_num
    have := crc16_bits_eq_zero hin h0
    have hpos : (0 : Nat) < 2 ^ (k + 8) := Nat.two_pow_pos _
    omega
  have hFb : crc16_update (crc16_upd1 u b) B < 65536 := by
    apply crc16_update_lt
    unfold crc16_upd1
    apply crc16_bits_lt
    have h1 : (b &&& 0xFF) <<< 8 < 65536 := by
      have h2 : b &&& 0xFF < 256 :=
        Nat.and_lt_two_pow _ (by norm_num : (0xFF : Nat) < 2 ^ 8)
      rw [Nat.shiftLeft_eq]
      norm_num
      omega
    have := Nat.xor_lt_two_pow (n := 16) (by simpa using hulto)
      (by simpa using h1)
    simpa using this
  have hEb : crc16_bits (8 + 8 * B.length) (2 ^ (k + 8)) < 65536 := by
    apply crc16_bits_lt
    calc (2 : Nat) ^ (k + 8) < 2 ^ 16 :=
          Nat.pow_lt_pow_right (by norm_num) (by omega)
      _ = 65536 := by norm_num
  unfold crc16 crc16_finish
  rw [hF, hFlip]
  rw [and_ffff_of_lt hFb]
  rw [and_ffff_of_lt (by
    have := Nat.xor_lt_two_pow (n := 16) (by simpa using hFb) (by simpa using hEb)
    simpa using this)]
  exact xor_ne_of_ne_zero _ hE

/-! ## CRC-32 theory: linearity and error propagation -/

/-- The CRC-32 bit step is GF(2)-linear. -/
theorem crc32_bit_xor (a b : Nat) :
    crc32_bit (a ^^^ b) = crc32_bit a ^^^ crc32_bit b := by
  unfold crc32_bit
  rw [Nat.testBit_xor, shiftRight_xor, ite_xor_guard, xor_xor_comm]

/-- The CRC-32 bit step keeps the state within 32 bits. -/
theorem crc32_bit_lt {s : Nat} (hs : s < 4294967296) :
    crc32_bit s < 4294967296 := by
  unfold crc32_bit
  have h1 : s >>> 1 < 4294967296 := by
    rw [Nat.shiftRight_eq_div_pow]
    omega
  have h2 : (if s.testBit 0 then 0xEDB88320 else 0) < 4294967296 := by
    split <;> norm_num
  have := Nat.xor_lt_two_pow (n := 32) (by simpa using h1) (by simpa using h2)
  simpa using this

/-- Only the zero state maps to zero under the CRC-32 bit step. -/
theorem crc32_bit_eq_zero {s : Nat} (hs : s < 4294967296)
    (h : crc32_bit s = 0) : s = 0 := by
  unfold crc32_bit at h
  by_cases h0 : s.testBit 0
  · exfalso
    rw [if_pos h0] at h
    have h31 := congrArg (fun x => x.testBit 31) h
    simp only [Nat.testBit_xor, Nat.testBit_shiftRight, Nat.zero_testBit] at h31
    have hhi : s.testBit (1 + 31) = false := by
      apply Nat.testBit_eq_false_of_lt
      calc s < 4294967296 := hs
        _ = 2 ^ 32 := by norm_num
    rw [hhi] at h31
    have hb31 : Nat.testBit 3988292384 31 = true := by decide
    simp [hb31] at h31
  · rw [if_neg h0, Nat.xor_zero, Nat.shiftRight_eq_div_pow] at h
    have hs2 : s < 2 := by omega
    interval_cases s
    · rfl
    · simp at h0

/-- Iterated CRC-32 bit steps compose additively. -/
theorem crc32_bits_add (m n s : Nat) :
    crc32_bits (m + n) s = crc32_bits n (crc32_bits m s) := by
  induction m generalizing s with
  | zero => simp [crc32_bits]
  | succ m ih =>
    have hmn : m + 1 + n = (m + n) + 1 := by omega
    rw [hmn]
    simp only [crc32_bits]
    rw [ih]

/-- Iterated CRC-32 bit steps are GF(2)-linear. -/
theorem crc32_bits_xor (n a b : Nat) :
    crc32_bits n (a ^^^ b) = crc32_bits n a ^^^ crc32_bits n b := by
  induction n generalizing a b with
  | zero => rfl
  | succ n ih => simp only [crc32_bits]; rw [crc32_bit_xor]; exact ih _ _

/-- Iterated CRC-32 bit steps keep the state within 32 bits. -/
theorem crc32_bits_lt {s : Nat} (n : Nat) (hs : s < 4294967296) :
    crc32_bits n s < 4294967296 := by
  induction n generalizing s with
  | zero => exact hs
  | succ n ih => exact ih (crc32_bit_lt hs)

/-- Iterated CRC-32 bit steps map only zero to zero. -/
theorem crc32_bits_eq_zero {n s : Nat} (hs : s < 4294967296)
    (h : crc32_bits n s = 0) : s = 0 := by
  induction n generalizing s with
  | zero => exact h
  | succ n ih => exact crc32_bit_eq_zero hs (ih (crc32_bit_lt hs) h)

/-- The CRC-32 update over concatenated byte runs is sequential. -/
theorem crc32_update_append (s : Nat) (a b : List Nat) :
    crc32_update s (a ++ b) = crc32_update (crc32_update s a) b := by
  simp [crc32_update, List.foldl_append]

/-- An XOR perturbation of the CRC-32 state passes through one byte
update as eight bit steps on the perturbation. -/
theorem crc32_upd1_xor (s e b : Nat) :
    crc32_upd1 (s ^^^ e) b = crc32_upd1 s b ^^^ crc32_bits 8 e := by
  unfold crc32_upd1
  rw [Nat.xor_assoc, Nat.xor_comm e, ← Nat.xor_assoc, crc32_bits_xor]

/-- An XOR perturbation of the CRC-32 state passes through a whole run as
eight bit steps per byte. -/
theorem crc32_update_xor (l : List Nat) (s e : Nat) :
    crc32_update (s ^^^ e) l =
      crc32_update s l ^^^ crc32_bits (8 * l.length) e := by
  induction l generalizing s e with
  | nil => simp [crc32_update, crc32_bits]
  | cons b bs ih =>
    simp only [crc32_update, List.foldl_cons, List.length_cons]
    rw [show crc32_upd1 (s ^^^ e) b = crc32_upd1 s b ^^^ crc32_bits 8 e from
      crc32_upd1_xor s e b]
    have h2 := ih (crc32_upd1 s b) (crc32_bits 8 e)
    simp only [crc32_update] at h2
    rw [h2, ← crc32_bits_add]
    congr 2
    omega

/-- Flipping bit `k` of an input byte XORs `2 ^ k` into the CRC-32 state
before its eight bit steps. -/
theorem crc32_upd1_flip (s b k : Nat) (hb : b < 256) (hk : k < 8) :
    crc32_upd1 s (b ^^^ 2 ^ k) = crc32_upd1 s b ^^^ crc32_bits 8 (2 ^ k) := by
  unfold crc32_upd1
  have hp : (2 : Nat) ^ k < 256 := by
    calc (2 : Nat) ^ k < 2 ^ 8 := Nat.pow_lt_pow_right (by norm_num) hk
      _ = 256 := by norm_num
  have hbk : b ^^^ 2 ^ k < 256 := by
    have := Nat.xor_lt_two_pow (n := 8) (by simpa using hb) (by simpa using hp)
    simpa using this
  rw [and_ff_of_lt hbk, and_ff_of_lt hb, ← Nat.xor_assoc, crc32_bits_xor]

/-- Flipping a single bit of a single byte changes the CRC-32. -/
theorem crc32_set_ne (l : List Nat) (i k : Nat)
    (hb : l.getD i 0 < 256) (hi : i < l.length) (hk : k < 8) :
    crc32 (l.set i (l.getD i 0 ^^^ 2 ^ k)) ≠ crc32 l := by
  have hbget : l.getD i 0 = l[i] := by
    simp [List.getD_eq_getElem?_getD, List.getElem?_eq_getElem hi]
  have hdecomp : l = l.take i ++ l[i] :: l.drop (i + 1) := by
    conv_lhs => rw [← List.take_append_drop i l]
    rw [List.drop_eq_getElem_cons hi]
  have hset : l.set i (l.getD i 0 ^^^ 2 ^ k) =
      l.take i ++ (l.getD i 0 ^^^ 2 ^ k) :: l.drop (i + 1) := by
    rw [List.set_eq_take_append_cons_drop]
    rw [if_pos hi]
  set A := l.take i
  set B := l.drop (i + 1)
  set b := l.getD i 0 with hbdef
  set u := crc32_update crc32_start A with hudef
  have hF : crc32_update crc32_start l =
      crc32_update (crc32_upd1 u b) B := by
    conv_lhs => rw [hdecomp]
    rw [crc32_update_append]
    simp only [crc32_update, List.foldl_cons, ← hbget]
    rfl
  have hFlip : crc32_update crc32_start (l.set i (b ^^^ 2 ^ k)) =
      crc32_update (crc32_upd1 u b) B ^^^
        crc32_bits (8 + 8 * B.length) (2 ^ k) := by
    rw [hset, crc32_update_append]
    simp only [crc32_update, List.foldl_cons]
    have huf : List.foldl crc32_upd1 crc32_start A = u := rfl
    rw [huf]
    rw [show crc32_upd1 u (b ^^^ 2 ^ k) =
        crc32_upd1 u b ^^^ crc32_bits 8 (2 ^ k) from
      crc32_upd1_flip u b k hb hk]
    have h2 := crc32_update_xor B (crc32_upd1 u b) (crc32_bits 8 (2 ^ k))
    simp only [crc32_update] at h2
    rw [h2, ← crc32_bits_add]
  have hE : crc32_bits (8 + 8 * B.length) (2 ^ k) ≠ 0 := by
    intro h0
    have hin : (2 : Nat) ^ k < 4294967296 := by
      calc (2 : Nat) ^ k < 2 ^ 8 := Nat.pow_lt_pow_right (by norm_num) hk
        _ < 4294967296 := by norm_num
    have hz := crc32_bits_eq_zero hin h0
    have hpos : (0 : Nat) < 2 ^ k := Nat.two_pow_pos _
    omega
  unfold crc32 crc32_finish
  rw [hF, hFlip]
  intro hcontra
  have h2 : crc32_update (crc32_upd1 u b) B ^^^ crc32_bits (8 + 8 * B.length) (2 ^ k) =
      crc32_update (crc32_upd1 u b) B := by
    have := congrArg (fun y => y ^^^ 0xFFFFFFFF) hcontra
    simpa only [Nat.xor_assoc, Nat.xor_self, Nat.xor_zero] using this
  exact xor_ne_of_ne_zero _ hE h2

/-- The CRC-32 state stays within 32 bits along any byte run. -/
theorem crc32_update_lt (l : List Nat) {s : Nat} (hs : s < 4294967296) :
    crc32_update s l < 4294967296 := by
  induction l generalizing s with
  | nil => exact hs
  | cons b bs ih =>
    apply ih
    unfold crc32_upd1
    apply crc32_bits_lt
    have h2 : b &&& 0xFF < 256 :=
      Nat.and_lt_two_pow _ (by norm_num : (0xFF : Nat) < 2 ^ 8)
    have := Nat.xor_lt_two_pow (n := 32) (by simpa using hs)
      (by simpa using (by omega : b &&& 0xFF < 4294967296))
    simpa using this

/-- The CRC-32 value is always below `2 ^ 32`. -/
theorem crc32_lt (l : List Nat) : crc32 l < 4294967296 := by
  unfold crc32 crc32_finish
  have h1 : crc32_update crc32_start l < 4294967296 :=
    crc32_update_lt l (by norm_num [crc32_start])
  have := Nat.xor_lt_two_pow (n := 32) (by simpa using h1)
    (by norm_num : (0xFFFFFFFF : Nat) < 2 ^ 32)
  simpa using this

/-! ## List indexing helper lemmas -/

/-- Reading inside the left part of an append. -/
theorem getD_append_left {a b : List Nat} {j : Nat} (d : Nat)
    (h : j < a.length) : (a ++ b).getD j d = a.getD j d := by
  simp [List.getD_eq_getElem?_getD, List.getElem?_append, h]

/-- Reading inside the right part of an append. -/
theorem getD_append_right {a b : List Nat} {j : Nat} (d : Nat)
    (h : a.length ≤ j) : (a ++ b).getD j d = b.getD (j - a.length) d := by
  simp [List.getD_eq_getElem?_getD, List.getElem?_append, Nat.not_lt.mpr h,
    if_neg]

/-- Reading after a drop. -/
theorem getD_drop (l : List Nat) (m j d : Nat) :
    (l.drop m).getD j d = l.getD (m + j) d := by
  simp [List.getD_eq_getElem?_getD, List.getElem?_drop]

/-- Reading away from the updated index. -/
theorem getD_set_ne {l : List Nat} {i j : Nat} (v d : Nat) (h : i ≠ j) :
    (l.set i v).getD j d = l.getD j d := by
  simp [List.getD_eq_getElem?_getD, List.getElem?_set_ne h]

/-- Reading at the updated index. -/
theorem getD_set_self {l : List Nat} {i : Nat} (v d : Nat)
    (h : i < l.length) : (l.set i v).getD i d = v := by
  simp [List.getD_eq_getElem?_getD, List.getElem?_set_self, h]

/-- A prefix is unchanged by an update at or beyond its end. -/
theorem take_set_of_le (l : List Nat) {n i : Nat} (v : Nat) (h : n ≤ i) :
    (l.set i v).take n = l.take n := by
  apply List.ext_getElem?
  intro j
  simp only [List.getElem?_take]
  split
  · next hj => exact List.getElem?_set_ne (by omega) 
  · rfl

/-- An update inside a prefix commutes with taking the prefix. -/
theorem set_take_comm (l : List Nat) {n i : Nat} (v : Nat) (h : i < n) :
    (l.set i v).take n = (l.take n).set i v := by
  apply List.ext_getElem?
  intro j
  by_cases hij : i = j
  · subst hij
    by_cases hil : i < l.length
    · simp [List.getElem?_take, List.getElem?_set_self, h, hil]
    · have h1 : l.set i v = l := List.set_eq_of_length_le (by omega)
      have h2 : (l.take n).set i v = l.take n := by
        apply List.set_eq_of_length_le
        simp [List.length_take]
        omega
      rw [h1, h2]
  · simp only [List.getElem?_take]
    split
    · rw [List.getElem?_set_ne hij, List.getElem?_set_ne hij]
      simp_all [List.getElem?_take]
    · next hj =>
        rw [List.getElem?_set_ne hij, List.getElem?_eq_none]
        simp only [List.length_take]
        omega

/-- An update beyond a dropped prefix commutes with the drop. -/
theorem drop_set_comm (l : List Nat) {m i : Nat} (v : Nat) (h : m ≤ i) :
    (l.set i v).drop m = (l.drop m).set (i - m) v := by
  apply List.ext_getElem?
  intro j
  have him : i - m = i - m := rfl
  by_cases hij : i = m + j
  · subst hij
    have hj2 : m + j - m = j := by omega
    rw [hj2]
    by_cases hil : m + j < l.length
    · rw [List.getElem?_drop, List.getElem?_set_self (by omega),
        List.getElem?_set_self (by simp [List.length_drop]; omega)]
    · have h1 : l.set (m + j) v = l := List.set_eq_of_length_le (by omega)
      have h2 : (l.drop m).set j v = l.drop m := by
        apply List.set_eq_of_length_le
        simp [List.length_drop]
        omega
      rw [h1, h2, List.getElem?_drop]
  · rw [List.getElem?_drop, List.getElem?_set_ne (by omega),
      List.getElem?_set_ne (by omega), List.getElem?_drop]

/-- Reading inside a taken prefix. -/
theorem getD_take {l : List Nat} {n j : Nat} (d : Nat) (h : j < n) :
    (l.take n).getD j d = l.getD j d := by
  simp [List.getD_eq_getElem?_getD, List.getElem?_take, h]

/-! ## Structure of encoded frames -/

/-- The encoded frame, written out byte by byte. -/
theorem encode_cons (seq chan flags opcode : Nat) (p : List Nat) :
    encode seq chan flags opcode p =
      0xD5 :: 0xAA :: seq % 256 :: chan % 256 :: flags % 256 :: opcode % 256 ::
      p.length % 256 :: p.length / 256 % 256 ::
      crc16 (headerBody seq chan flags opcode p.length) % 256 ::
      crc16 (headerBody seq chan flags opcode p.length) / 256 % 256 ::
      (p ++ (if p.length = 0 then [] else le32 (crc32 p))) := by
  simp [encode, encode_header, headerBody, le16]

/-- Length of an encoded frame. -/
theorem encode_length (seq chan flags opcode : Nat) (p : List Nat) :
    (encode seq chan flags opcode p).length =
      10 + p.length + (if p.length = 0 then 0 else 4) := by
  rw [encode_cons]
  simp only [List.length_cons, List.length_append]
  split <;> simp [le32] <;> omega

/-- The first eight bytes of an encoded frame are the header body. -/
theorem encode_take8 (seq chan flags opcode : Nat) (p : List Nat) :
    (encode seq chan flags opcode p).take 8 =
      headerBody seq chan flags opcode p.length := by
  rw [encode_cons]
  rfl

/-- The stored header CRC of an encoded frame. -/
theorem encode_read8 (seq chan flags opcode : Nat) (p : List Nat) :
    readLE16 (encode seq chan flags opcode p) 8 =
      crc16 (headerBody seq chan flags opcode p.length) := by
  rw [encode_cons]
  unfold readLE16
  simp only [List.getD_cons_succ, List.getD_cons_zero]
  have h := crc16_lt (headerBody seq chan flags opcode p.length)
  omega

/-- The stored LENGTH field of an encoded frame. -/
theorem encode_read6 (seq chan flags opcode : Nat) (p : List Nat)
    (hlen : p.length < 65536) :
    readLE16 (encode seq chan flags opcode p) 6 = p.length := by
  rw [encode_cons]
  unfold readLE16
  simp only [List.getD_cons_succ, List.getD_cons_zero]
  omega

/-- Everything after the header of an encoded frame. -/
theorem encode_drop10 (seq chan flags opcode : Nat) (p : List Nat) :
    (encode seq chan flags opcode p).drop 10 =
      p ++ (if p.length = 0 then [] else le32 (crc32 p)) := by
  rw [encode_cons]
  rfl

/-- The stored data CRC of an encoded frame with a non-empty payload. -/
theorem encode_read32 (seq chan flags opcode : Nat) (p : List Nat)
    (hp : p.length ≠ 0) :
    readLE32 (encode seq chan flags opcode p) (10 + p.length) = crc32 p := by
  unfold readLE32
  have hgd : ∀ j : Nat, (encode seq chan flags opcode p).getD (10 + p.length + j) 0 =
      (le32 (crc32 p)).getD j 0 := by
    intro j
    have h1 : (encode seq chan flags opcode p).getD (10 + (p.length + j)) 0 =
        ((encode seq chan flags opcode p).drop 10).getD (p.length + j) 0 :=
      (getD_drop _ 10 (p.length + j) 0).symm
    have h2 : 10 + p.length + j = 10 + (p.length + j) := by omega
    rw [h2, h1, encode_drop10, if_neg hp, getD_append_right 0 (by omega)]
    congr 1
    omega
  have hgd0 : (encode seq chan flags opcode p).getD (10 + p.length) 0 =
      (le32 (crc32 p)).getD 0 0 := by
    have := hgd 0
    simpa using this
  rw [hgd0, hgd 1, hgd 2, hgd 3]
  simp only [le32, List.getD_cons_succ, List.getD_cons_zero]
  have h := crc32_lt p
  omega

/-- Individual header bytes of an encoded frame. -/
theorem encode_getD (seq chan flags opcode : Nat) (p : List Nat) :
    (encode seq chan flags opcode p).getD 0 0 = 0xD5 ∧
    (encode seq chan flags opcode p).getD 1 0 = 0xAA ∧
    (encode seq chan flags opcode p).getD 2 0 = seq % 256 ∧
    (encode seq chan flags opcode p).getD 3 0 = chan % 256 ∧
    (encode seq chan flags opcode p).getD 4 0 = flags % 256 ∧
    (encode seq chan flags opcode p).getD 5 0 = opcode % 256 := by
  rw [encode_cons]
  exact ⟨rfl, rfl, rfl, rfl, rfl, rfl⟩

/-- Decoding an encoded frame succeeds and returns the header fields and
the payload unchanged. -/
theorem decode_encode (seq chan flags opcode : Nat) (p : List Nat)
    (hs : seq < 256) (hc : chan < 256) (hf : flags < 256) (ho : opcode < 256)
    (hlen : p.length < 65536) :
    decode (encode seq chan flags opcode p) =
      .ok (⟨seq, chan, flags, opcode, p.length⟩, p) := by
  obtain ⟨h0, h1, h2, h3, h4, h5⟩ := encode_getD seq chan flags opcode p
  have hlen10 : ¬ (encode seq chan flags opcode p).length < 10 := by
    rw [encode_length]
    split <;> omega
  have hcrceq : readLE16 (encode seq chan flags opcode p) 8 =
      crc16 ((encode seq chan flags opcode p).take 8) := by
    rw [encode_read8, encode_take8]
  unfold decode
  rw [if_neg hlen10, if_neg (not_not_intro ⟨h0, h1⟩),
    if_neg (not_not_intro hcrceq)]
  simp only [encode_read6 seq chan flags opcode p hlen]
  by_cases hp0 : p.length = 0
  · rw [if_pos hp0]
    have hp : p = [] := List.length_eq_zero.mp hp0
    rw [if_pos (by rw [encode_length]; simp [hp0])]
    rw [h2, h3, h4, h5, Nat.mod_eq_of_lt hs, Nat.mod_eq_of_lt hc,
      Nat.mod_eq_of_lt hf, Nat.mod_eq_of_lt ho]
    rw [hp]
  · rw [if_neg hp0]
    have hl4 : (encode seq chan flags opcode p).length = 10 + p.length + 4 := by
      rw [encode_length, if_neg hp0]
    rw [if_pos hl4]
    have hpay : ((encode seq chan flags opcode p).drop 10).take p.length = p := by
      rw [encode_drop10, if_neg hp0, List.take_append_of_le_length (by omega),
        List.take_length]
    rw [hpay]
    rw [if_neg (not_not_intro (encode_read32 seq chan flags opcode p hp0))]
    rw [h2, h3, h4, h5, Nat.mod_eq_of_lt hs, Nat.mod_eq_of_lt hc,
      Nat.mod_eq_of_lt hf, Nat.mod_eq_of_lt ho]

/-- Reading any position of an all-byte list yields a byte. -/
theorem getD_lt_of_all {l : List Nat} (j : Nat) (h : ∀ b ∈ l, b < 256) :
    l.getD j 0 < 256 := by
  by_cases hj : j < l.length
  · have h1 : l.getD j 0 = l[j] := by
      simp [List.getD_eq_getElem?_getD, List.getElem?_eq_getElem hj]
    rw [h1]
    exact h _ (List.getElem_mem hj)
  · have h0 : l[j]? = none := List.getElem?_eq_none (by omega)
    have h1 : l.getD j 0 = 0 := by
      simp [List.getD_eq_getElem?_getD, h0]
    omega

/-- Every byte of an encoded frame is below 256. -/
theorem encode_all_lt (seq chan flags opcode : Nat) (p : List Nat)
    (hb : ∀ b ∈ p, b < 256) :
    ∀ b ∈ encode seq chan flags opcode p, b < 256 := by
  intro b hmem
  rw [encode_cons] at hmem
  simp only [List.mem_cons, List.mem_append] at hmem
  have hm256 : ∀ x : Nat, x % 256 < 256 := fun x => Nat.mod_lt _ (by norm_num)
  rcases hmem with h|h|h|h|h|h|h|h|h|h|h|h
  · omega
  · omega
  · subst h; exact hm256 _
  · subst h; exact hm256 _
  · subst h; exact hm256 _
  · subst h; exact hm256 _
  · subst h; exact hm256 _
  · subst h; exact hm256 _
  · subst h; exact hm256 _
  · subst h; exact hm256 _
  · exact hb b h
  · split at h
    · simp at h
    · simp only [le32, List.mem_cons] at h
      rcases h with h|h|h|h|h
      · subst h; exact hm256 _
      · subst h; exact hm256 _
      · subst h; exact hm256 _
      · subst h; exact hm256 _
      · simp at h

/-- The payload of an encoded frame, recovered by offset and LENGTH. -/
theorem encode_payload_take (seq chan flags opcode : Nat) (p : List Nat) :
    ((encode seq chan flags opcode p).drop 10).take p.length = p := by
  rw [encode_drop10, List.take_append_of_le_length (by omega), List.take_length]

/-- An encoded frame is at least 10 bytes long. -/
theorem encode_length_ge (seq chan flags opcode : Nat) (p : List Nat) :
    10 ≤ (encode seq chan flags opcode p).length := by
  rw [encode_length]
  split <;> omega

/-- Flipping a bit inside the two SYNC bytes makes decoding fail with
an invalid-sync error. -/
theorem decode_flip_sync (seq chan flags opcode : Nat) (p : List Nat)
    (i k : Nat) (hi : i < 2) (hk : k < 8) :
    decode ((encode seq chan flags opcode p).set i
      ((encode seq chan flags opcode p).getD i 0 ^^^ 2 ^ k)) =
      .error .invalidSync := by
  obtain ⟨h0, h1, _, _, _, _⟩ := encode_getD seq chan flags opcode p
  have hge := encode_length_ge seq chan flags opcode p
  have hkne : (2 : Nat) ^ k ≠ 0 := by
    have := Nat.two_pow_pos k
    omega
  set fr := encode seq chan flags opcode p with hfr
  have hlen : ¬ (fr.set i (fr.getD i 0 ^^^ 2 ^ k)).length < 10 := by
    rw [List.length_set]
    omega
  unfold decode
  rw [if_neg hlen]
  interval_cases i
  · have hd0 : (fr.set 0 (fr.getD 0 0 ^^^ 2 ^ k)).getD 0 0 =
        fr.getD 0 0 ^^^ 2 ^ k := getD_set_self _ _ (by omega)
    rw [if_pos (by
      intro hand
      rw [hd0, h0] at hand
      exact xor_ne_of_ne_zero 0xD5 hkne hand.1)]
  · have hd1 : (fr.set 1 (fr.getD 1 0 ^^^ 2 ^ k)).getD 1 0 =
        fr.getD 1 0 ^^^ 2 ^ k := getD_set_self _ _ (by omega)
    rw [if_pos (by
      intro hand
      rw [hd1, h1] at hand
      exact xor_ne_of_ne_zero 0xAA hkne hand.2)]

/-- Flipping a bit inside header bytes 2..7 makes decoding fail with a
checksum error: the header CRC no longer matches. -/
theorem decode_flip_hdr (seq chan flags opcode : Nat) (p : List Nat)
    (hb : ∀ b ∈ p, b < 256)
    (i k : Nat) (hi2 : 2 ≤ i) (hi7 : i < 8) (hk : k < 8) :
    decode ((encode seq chan flags opcode p).set i
      ((encode seq chan flags opcode p).getD i 0 ^^^ 2 ^ k)) =
      .error .checksum := by
  obtain ⟨h0, h1, _, _, _, _⟩ := encode_getD seq chan flags opcode p
  have hge := encode_length_ge seq chan flags opcode p
  have hall := encode_all_lt seq chan flags opcode p hb
  set fr := encode seq chan flags opcode p with hfr
  have hlen : ¬ (fr.set i (fr.getD i 0 ^^^ 2 ^ k)).length < 10 := by
    rw [List.length_set]
    omega
  have hd0 : (fr.set i (fr.getD i 0 ^^^ 2 ^ k)).getD 0 0 = 0xD5 := by
    rw [getD_set_ne _ _ (by omega)]
    exact h0
  have hd1 : (fr.set i (fr.getD i 0 ^^^ 2 ^ k)).getD 1 0 = 0xAA := by
    rw [getD_set_ne _ _ (by omega)]
    exact h1
  have hstored : readLE16 (fr.set i (fr.getD i 0 ^^^ 2 ^ k)) 8 =
      readLE16 fr 8 := by
    unfold readLE16
    rw [getD_set_ne _ _ (by omega), getD_set_ne _ _ (by omega)]
  have htk : (fr.set i (fr.getD i 0 ^^^ 2 ^ k)).take 8 =
      (fr.take 8).set i ((fr.take 8).getD i 0 ^^^ 2 ^ k) := by
    rw [set_take_comm _ _ hi7, getD_take _ hi7]
  have hcrcne : crc16 ((fr.set i (fr.getD i 0 ^^^ 2 ^ k)).take 8) ≠
      crc16 (fr.take 8) := by
    rw [htk]
    apply crc16_set_ne
    · rw [getD_take _ hi7]
      exact getD_lt_of_all i hall
    · rw [List.length_take]
      omega
    · exact hk
  unfold decode
  rw [if_neg hlen, if_neg (not_not_intro ⟨hd0, hd1⟩)]
  rw [if_pos (by
    rw [hstored, encode_read8, ← encode_take8 seq chan flags opcode p, ← hfr]
    exact fun heq => hcrcne heq.symm)]

/-- Flipping a bit inside the stored header CRC (bytes 8..9) makes
decoding fail with a checksum error. -/
theorem decode_flip_crcb (seq chan flags opcode : Nat) (p : List Nat)
    (i k : Nat) (hi8 : 8 ≤ i) (hi9 : i < 10) (hk : k < 8) :
    decode ((encode seq chan flags opcode p).set i
      ((encode seq chan flags opcode p).getD i 0 ^^^ 2 ^ k)) =
      .error .checksum := by
  obtain ⟨h0, h1, _, _, _, _⟩ := encode_getD seq chan flags opcode p
  have hge := encode_length_ge seq chan flags opcode p
  have hkne : (2 : Nat) ^ k ≠ 0 := by
    have := Nat.two_pow_pos k
    omega
  set fr := encode seq chan flags opcode p with hfr
  have hlen : ¬ (fr.set i (fr.getD i 0 ^^^ 2 ^ k)).length < 10 := by
    rw [List.length_set]
    omega
  have hd0 : (fr.set i (fr.getD i 0 ^^^ 2 ^ k)).getD 0 0 = 0xD5 := by
    rw [getD_set_ne _ _ (by omega)]
    exact h0
  have hd1 : (fr.set i (fr.getD i 0 ^^^ 2 ^ k)).getD 1 0 = 0xAA := by
    rw [getD_set_ne _ _ (by omega)]
    exact h1
  have htk : (fr.set i (fr.getD i 0 ^^^ 2 ^ k)).take 8 = fr.take 8 :=
    take_set_of_le _ _ (by omega)
  have hstored : readLE16 (fr.set i (fr.getD i 0 ^^^ 2 ^ k)) 8 ≠
      readLE16 fr 8 := by
    unfold readLE16
    rcases Nat.lt_or_ge i 9 with h9 | h9
    · have hieq : i = 8 := by omega
      subst hieq
      rw [getD_set_self _ _ (by omega), getD_set_ne _ _ (by omega)]
      have hne := xor_ne_of_ne_zero (fr.getD 8 0) hkne
      omega
    · have hieq : i = 9 := by omega
      subst hieq
      simp only [Nat.reduceAdd]
      rw [getD_set_self _ _ (by omega), getD_set_ne _ _ (by omega)]
      have hne := xor_ne_of_ne_zero (fr.getD 9 0) hkne
      omega
  have hceq : readLE16 fr 8 = crc16 (fr.take 8) := by
    rw [hfr, encode_read8, encode_take8]
  unfold decode
  rw [if_neg hlen, if_neg (not_not_intro ⟨hd0, hd1⟩)]
  rw [if_pos (by rw [htk, ← hceq]; exact hstored)]

/-- Flipping a bit inside the payload makes decoding fail with a checksum
error: the payload CRC-32 no longer matches. -/
theorem decode_flip_payload (seq chan flags opcode : Nat) (p : List Nat)
    (hb : ∀ b ∈ p, b < 256) (hlen : p.length < 65536)
    (i k : Nat) (hi10 : 10 ≤ i) (hiL : i < 10 + p.length) (hk : k < 8) :
    decode ((encode seq chan flags opcode p).set i
      ((encode seq chan flags opcode p).getD i 0 ^^^ 2 ^ k)) =
      .error .checksum := by
  obtain ⟨h0, h1, _, _, _, _⟩ := encode_getD seq chan flags opcode p
  have hge := encode_length_ge seq chan flags opcode p
  have hp0 : p.length ≠ 0 := by omega
  set fr := encode seq chan flags opcode p with hfr
  have hfl : fr.length = 10 + p.length + 4 := by
    rw [hfr, encode_length, if_neg hp0]
  have hlen10 : ¬ (fr.set i (fr.getD i 0 ^^^ 2 ^ k)).length < 10 := by
    rw [List.length_set]
    omega
  have hd0 : (fr.set i (fr.getD i 0 ^^^ 2 ^ k)).getD 0 0 = 0xD5 := by
    rw [getD_set_ne _ _ (by omega)]
    exact h0
  have hd1 : (fr.set i (fr.getD i 0 ^^^ 2 ^ k)).getD 1 0 = 0xAA := by
    rw [getD_set_ne _ _ (by omega)]
    exact h1
  have htk8 : (fr.set i (fr.getD i 0 ^^^ 2 ^ k)).take 8 = fr.take 8 :=
    take_set_of_le _ _ (by omega)
  have hstored8 : readLE16 (fr.set i (fr.getD i 0 ^^^ 2 ^ k)) 8 =
      readLE16 fr 8 := by
    unfold readLE16
    rw [getD_set_ne _ _ (by omega), getD_set_ne _ _ (by omega)]
  have hceq : readLE16 fr 8 = crc16 (fr.take 8) := by
    rw [hfr, encode_read8, encode_take8]
  have hr6 : readLE16 (fr.set i (fr.getD i 0 ^^^ 2 ^ k)) 6 = p.length := by
    unfold readLE16
    rw [getD_set_ne _ _ (by omega), getD_set_ne _ _ (by omega)]
    have h6 := encode_read6 seq chan flags opcode p hlen
    unfold readLE16 at h6
    rw [← hfr] at h6
    exact h6
  have hlcheck : (fr.set i (fr.getD i 0 ^^^ 2 ^ k)).length =
      10 + p.length + 4 := by
    rw [List.length_set]
    exact hfl
  have hpt : (fr.drop 10).take p.length = p := by
    rw [hfr]
    exact encode_payload_take seq chan flags opcode p
  have hgd : fr.getD i 0 = p.getD (i - 10) 0 := by
    have h2 : (fr.drop 10).getD (i - 10) 0 = fr.getD (10 + (i - 10)) 0 :=
      getD_drop _ 10 (i - 10) 0
    rw [show 10 + (i - 10) = i by omega] at h2
    rw [← h2, hfr, encode_drop10, if_neg hp0, getD_append_left _ (by omega)]
  have hptk : ((fr.set i (fr.getD i 0 ^^^ 2 ^ k)).drop 10).take p.length =
      p.set (i - 10) (p.getD (i - 10) 0 ^^^ 2 ^ k) := by
    rw [drop_set_comm _ _ (by omega), set_take_comm _ _ (by omega), hpt, hgd]
  have hr32 : readLE32 (fr.set i (fr.getD i 0 ^^^ 2 ^ k)) (10 + p.length) =
      crc32 p := by
    unfold readLE32
    rw [getD_set_ne _ _ (by omega), getD_set_ne _ _ (by omega),
      getD_set_ne _ _ (by omega), getD_set_ne _ _ (by omega)]
    have h3 := encode_read32 seq chan flags opcode p hp0
    unfold readLE32 at h3
    rw [← hfr] at h3
    exact h3
  have hcne : crc32 (p.set (i - 10) (p.getD (i - 10) 0 ^^^ 2 ^ k)) ≠
      crc32 p :=
    crc32_set_ne p (i - 10) k (getD_lt_of_all _ hb) (by omega) hk
  unfold decode
  rw [if_neg hlen10, if_neg (not_not_intro ⟨hd0, hd1⟩),
    if_neg (not_not_intro (by rw [hstored8, htk8, hceq]))]
  simp only [hr6]
  rw [if_neg hp0, if_pos hlcheck]
  rw [if_pos (by rw [hr32, hptk]; exact fun heq => hcne heq.symm)]

/-- Flipping a bit inside the stored data CRC makes decoding fail with a
checksum error. -/
theorem decode_flip_dcrc (seq chan flags opcode : Nat) (p : List Nat)
    (hp0 : p.length ≠ 0) (hlen : p.length < 65536)
    (i k : Nat) (hiL : 10 + p.length ≤ i) (hiE : i < 14 + p.length)
    (hk : k < 8) :
    decode ((encode seq chan flags opcode p).set i
      ((encode seq chan flags opcode p).getD i 0 ^^^ 2 ^ k)) =
      .error .checksum := by
  obtain ⟨h0, h1, _, _, _, _⟩ := encode_getD seq chan flags opcode p
  have hge := encode_length_ge seq chan flags opcode p
  have hkne : (2 : Nat) ^ k ≠ 0 := by
    have := Nat.two_pow_pos k
    omega
  set fr := encode seq chan flags opcode p with hfr
  have hfl : fr.length = 10 + p.length + 4 := by
    rw [hfr, encode_length, if_neg hp0]
  have hlen10 : ¬ (fr.set i (fr.getD i 0 ^^^ 2 ^ k)).length < 10 := by
    rw [List.length_set]
    omega
  have hd0 : (fr.set i (fr.getD i 0 ^^^ 2 ^ k)).getD 0 0 = 0xD5 := by
    rw [getD_set_ne _ _ (by omega)]
    exact h0
  have hd1 : (fr.set i (fr.getD i 0 ^^^ 2 ^ k)).getD 1 0 = 0xAA := by
    rw [getD_set_ne _ _ (by omega)]
    exact h1
  have htk8 : (fr.set i (fr.getD i 0 ^^^ 2 ^ k)).take 8 = fr.take 8 :=
    take_set_of_le _ _ (by omega)
  have hstored8 : readLE16 (fr.set i (fr.getD i 0 ^^^ 2 ^ k)) 8 =
      readLE16 fr 8 := by
    unfold readLE16
    rw [getD_set_ne _ _ (by omega), getD_set_ne _ _ (by omega)]
  have hceq : readLE16 fr 8 = crc16 (fr.take 8) := by
    rw [hfr, encode_read8, encode_take8]
  have hr6 : readLE16 (fr.set i (fr.getD i 0 ^^^ 2 ^ k)) 6 = p.length := by
    unfold readLE16
    rw [getD_set_ne _ _ (by omega), getD_set_ne _ _ (by omega)]
    have h6 := encode_read6 seq chan flags opcode p hlen
    unfold readLE16 at h6
    rw [← hfr] at h6
    exact h6
  have hlcheck : (fr.set i (fr.getD i 0 ^^^ 2 ^ k)).length =
      10 + p.length + 4 := by
    rw [List.length_set]
    exact hfl
  have hpt : (fr.drop 10).take p.length = p := by
    rw [hfr]
    exact encode_payload_take seq chan flags opcode p
  have hptk : ((fr.set i (fr.getD i 0 ^^^ 2 ^ k)).drop 10).take p.length =
      p := by
    rw [drop_set_comm _ _ (by omega), take_set_of_le _ _ (by omega), hpt]
  have hr32f : readLE32 fr (10 + p.length) = crc32 p := by
    have h3 := encode_read32 seq chan flags opcode p hp0
    rw [← hfr] at h3
    exact h3
  have hrne : readLE32 (fr.set i (fr.getD i 0 ^^^ 2 ^ k)) (10 + p.length) ≠
      readLE32 fr (10 + p.length) := by
    unfold readLE32
    rcases (by omega : i = 10 + p.length ∨ i = 10 + p.length + 1 ∨
        i = 10 + p.length + 2 ∨ i = 10 + p.length + 3) with hieq|hieq|hieq|hieq
    · subst hieq
      rw [getD_set_self _ _ (by omega), getD_set_ne _ _ (by omega),
        getD_set_ne _ _ (by omega), getD_set_ne _ _ (by omega)]
      have hne := xor_ne_of_ne_zero (fr.getD (10 + p.length) 0) hkne
      omega
    · subst hieq
      rw [getD_set_ne _ _ (by omega), getD_set_self _ _ (by omega),
        getD_set_ne _ _ (by omega), getD_set_ne _ _ (by omega)]
      have hne := xor_ne_of_ne_zero (fr.getD (10 + p.length + 1) 0) hkne
      omega
    · subst hieq
      rw [getD_set_ne _ _ (by omega), getD_set_ne _ _ (by omega),
        getD_set_self _ _ (by omega), getD_set_ne _ _ (by omega)]
      have hne := xor_ne_of_ne_zero (fr.getD (10 + p.length + 2) 0) hkne
      omega
    · subst hieq
      rw [getD_set_ne _ _ (by omega), getD_set_ne _ _ (by omega),
        getD_set_ne _ _ (by omega), getD_set_self _ _ (by omega)]
      have hne := xor_ne_of_ne_zero (fr.getD (10 + p.length + 3) 0) hkne
      omega
  unfold decode
  rw [if_neg hlen10, if_neg (not_not_intro ⟨hd0, hd1⟩),
    if_neg (not_not_intro (by rw [hstored8, htk8, hceq]))]
  simp only [hr6]
  rw [if_neg hp0, if_pos hlcheck]
  rw [if_pos (by rw [hptk]; rw [← hr32f]; exact hrne)]

/-- Flipping any single bit of an encoded frame makes decoding fail:
with an invalid-sync error for bits of the two SYNC bytes, and with a
checksum error everywhere else. -/
theorem decode_encode_flip (seq chan flags opcode : Nat) (p : List Nat)
    (hb : ∀ b ∈ p, b < 256) (hlen : p.length < 65536)
    (pos : Nat) (hpos : pos < 8 * (encode seq chan flags opcode p).length) :
    decode (flipBit (encode seq chan flags opcode p) pos) =
      .error (if pos < 16 then .invalidSync else .checksum) := by
  have hge := encode_length_ge seq chan flags opcode p
  have hik : 8 * (pos / 8) + pos % 8 = pos := Nat.div_add_mod pos 8
  have hk : pos % 8 < 8 := Nat.mod_lt _ (by norm_num)
  have hflip : flipBit (encode seq chan flags opcode p) pos =
      (encode seq chan flags opcode p).set (pos / 8)
        ((encode seq chan flags opcode p).getD (pos / 8) 0 ^^^ 2 ^ (pos % 8)) := by
    unfold flipBit
    rw [Nat.one_shiftLeft]
  rw [hflip]
  have hi : pos / 8 < (encode seq chan flags opcode p).length :=
    Nat.div_lt_of_lt_mul hpos
  by_cases h2 : pos / 8 < 2
  · rw [if_pos (by omega)]
    exact decode_flip_sync seq chan flags opcode p _ _ h2 hk
  · by_cases h8 : pos / 8 < 8
    · rw [if_neg (by omega)]
      exact decode_flip_hdr seq chan flags opcode p hb _ _ (by omega) h8 hk
    · by_cases h10 : pos / 8 < 10
      · rw [if_neg (by omega)]
        exact decode_flip_crcb seq chan flags opcode p _ _ (by omega) h10 hk
      · have hp0 : p.length ≠ 0 := by
          intro hz
          have h0 : (encode seq chan flags opcode p).length = 10 := by
            rw [encode_length, hz]
            norm_num
          omega
        have hfl : (encode seq chan flags opcode p).length =
            10 + p.length + 4 := by
          rw [encode_length, if_neg hp0]
        by_cases hpl : pos / 8 < 10 + p.length
        · rw [if_neg (by omega)]
          exact decode_flip_payload seq chan flags opcode p hb hlen _ _
            (by omega) hpl hk
        · rw [if_neg (by omega)]
          exact decode_flip_dcrc seq chan flags opcode p hp0 hlen _ _
            (by omega) (by omega) hk

/-- C1 (amended): for every payload of length 0 to 4082 made of bytes,
encoding then decoding succeeds and returns the same header fields and
payload, with both CRCs validating; the 4-byte data CRC is present exactly
when the payload is non-empty; and decoding the frame with any single bit
flipped fails — with an INVALID_SYNC error when the flipped bit lies in
the two SYNC bytes (bit positions 0..15) and a CHECKSUM error otherwise. -/
theorem spec_C1 (seq chan flags opcode : Nat) (p : List Nat)
    (hs : seq < 256) (hc : chan < 256) (hf : flags < 256) (ho : opcode < 256)
    (hlen : p.length ≤ 4082) (hb : ∀ b ∈ p, b < 256) :
    decode (encode seq chan flags opcode p) =
      .ok (⟨seq, chan, flags, opcode, p.length⟩, p) ∧
    (encode seq chan flags opcode p).length =
      10 + p.length + (if 0 < p.length then 4 else 0) ∧
    ∀ pos < 8 * (encode seq chan flags opcode p).length,
      decode (flipBit (encode seq chan flags opcode p) pos) =
        .error (if pos < 16 then .invalidSync else .checksum) := by
  refine ⟨decode_encode seq chan flags opcode p hs hc hf ho (by omega),
    ?_, ?_⟩
  · rw [encode_length]
    by_cases h : p.length = 0
    · simp [h]
    · rw [if_neg h, if_pos (by omega)]
  · intro pos hpos
    exact decode_encode_flip seq chan flags opcode p hb (by omega) pos hpos

/-- C1 witness: the amended statement at a concrete frame. -/
theorem spec_C1_witness :
    decode (encode 1 2 8 38 [7, 9]) =
      .ok (⟨1, 2, 8, 38, 2⟩, [7, 9]) ∧
    (encode 1 2 8 38 [7, 9]).length = 10 + 2 + (if 0 < 2 then 4 else 0) ∧
    ∀ pos < 8 * (encode 1 2 8 38 [7, 9]).length,
      decode (flipBit (encode 1 2 8 38 [7, 9]) pos) =
        .error (if pos < 16 then .invalidSync else .checksum) :=
  spec_C1 1 2 8 38 [7, 9] (by decide) (by decide) (by decide) (by decide)
    (by decide) (by decide)

/-- C1 counterexample: flipping bit 0 (inside the SYNC pattern) of the
encoded empty frame makes decoding fail with INVALID_SYNC, not with the
CHECKSUM error the claim requires for every flipped bit. -/
theorem spec_C1_cex :
    decode (flipBit (encode 0 0 0 0 []) 0) = .error .invalidSync ∧
    DecodeError.invalidSync ≠ DecodeError.checksum :=
  ⟨rfl, by decide⟩

/-- C6: the header CRC of an encoded frame is CRC-16-CCITT over header
bytes 0..7 only and is stored at bytes 8..9; mutating any byte at offset
10 or beyond changes neither the computed nor the stored header CRC. -/
theorem spec_C6 (seq chan flags opcode : Nat) (p : List Nat) (i b : Nat)
    (hi : 10 ≤ i) :
    readLE16 (encode seq chan flags opcode p) 8 =
      crc16 ((encode seq chan flags opcode p).take 8) ∧
    ((encode seq chan flags opcode p).set i b).take 8 =
      (encode seq chan flags opcode p).take 8 ∧
    crc16 (((encode seq chan flags opcode p).set i b).take 8) =
      crc16 ((encode seq chan flags opcode p).take 8) ∧
    readLE16 ((encode seq chan flags opcode p).set i b) 8 =
      readLE16 (encode seq chan flags opcode p) 8 := by
  refine ⟨by rw [encode_read8, encode_take8], take_set_of_le _ _ (by omega),
    by rw [take_set_of_le _ _ (by omega)], ?_⟩
  unfold readLE16
  rw [getD_set_ne _ _ (by omega), getD_set_ne _ _ (by omega)]

/-- C6 witness: the statement at a concrete frame and payload offset. -/
theorem spec_C6_witness :
    readLE16 (encode 3 1 0 38 [5]) 8 = crc16 ((encode 3 1 0 38 [5]).take 8) ∧
    ((encode 3 1 0 38 [5]).set 10 99).take 8 =
      (encode 3 1 0 38 [5]).take 8 ∧
    crc16 (((encode 3 1 0 38 [5]).set 10 99).take 8) =
      crc16 ((encode 3 1 0 38 [5]).take 8) ∧
    readLE16 ((encode 3 1 0 38 [5]).set 10 99) 8 =
      readLE16 (encode 3 1 0 38 [5]) 8 :=
  spec_C6 3 1 0 38 [5] 10 99 (by decide)

/-- OR-ing the same mask twice is the same as once. -/
theorem lor_lor_self (a b : Nat) : (a ||| b) ||| b = a ||| b := by
  apply Nat.eq_of_testBit_eq
  intro i
  simp only [Nat.testBit_lor]
  cases a.testBit i <;> cases b.testBit i <;> rfl

/-- Setting the RTX flag is idempotent. -/
theorem setRtx_idem (f : Frame) : setRtx (setRtx f) = setRtx f := by
  unfold setRtx
  simp only [lor_lor_self]

/-- A frame with the RTX flag set tests positive for it. -/
theorem hasFlag_setRtx (f : Frame) : hasFlag (setRtx f).flags FLAG_RTX = true := by
  unfold setRtx hasFlag FLAG_RTX
  simp only []
  have h : (f.flags ||| 4) &&& 4 = 4 := by
    apply Nat.eq_of_testBit_eq
    intro i
    simp only [Nat.testBit_land, Nat.testBit_lor]
    cases f.flags.testBit i <;> cases (4 : Nat).testBit i <;> rfl
  rw [h]
  rfl

/-- Iterated non-RTX transmission advances `tx_seq` by the frame count,
mod 256. -/
theorem protoTransmitAll_tx_seq (fs : List Frame) (st : ProtoState)
    (htx : st.tx_seq < 256)
    (h : ∀ f ∈ fs, hasFlag f.flags FLAG_RTX = false) :
    (protoTransmitAll st fs).1.tx_seq = (st.tx_seq + fs.length) % 256 := by
  induction fs generalizing st with
  | nil =>
    simp only [protoTransmitAll, List.length_nil, Nat.add_zero]
    exact (Nat.mod_eq_of_lt htx).symm
  | cons f fs ih =>
    simp only [protoTransmitAll, List.length_cons]
    have hf : hasFlag f.flags FLAG_RTX = false := h f (by simp)
    unfold protoTransmit
    rw [if_neg (by simp [hf])]
    have ih2 := ih {st with tx_seq := (st.tx_seq + 1) % 256}
      (Nat.mod_lt _ (by norm_num)) (fun g hg => h g (by simp [hg]))
    simp only at ih2
    rw [ih2, Nat.mod_add_mod]
    congr 1
    omega

/-- C3: transmitting a non-RTX frame emits the current `tx_seq` and then
increments it mod 256, so 256 transmissions from 0 wrap back to 0; a
received duplicate (SEQ equal to `rx_seq`) is re-ACKed without being
dispatched again; and a received RTX frame bypasses the sequence check,
is dispatched, and does not advance `rx_seq`. -/
theorem spec_C3 :
    (∀ (st : ProtoState) (f : Frame), hasFlag f.flags FLAG_RTX = false →
      protoTransmit st f =
        ({st with tx_seq := (st.tx_seq + 1) % 256},
         {f with seq := st.tx_seq})) ∧
    (∀ (st : ProtoState) (fs : List Frame), st.tx_seq = 0 →
      fs.length = 256 → (∀ f ∈ fs, hasFlag f.flags FLAG_RTX = false) →
      (protoTransmitAll st fs).1.tx_seq = 0) ∧
    (∀ (st : ProtoState) (f : Frame) (r : Nat), st.rx_seq = some r →
      f.seq = r → hasFlag f.flags FLAG_RTX = false →
      protoRecv st f = (st, [.sendAck]) ∧
        ∀ g, RecvAction.dispatch g ∉ (protoRecv st f).2) ∧
    (∀ (st : ProtoState) (f : Frame), hasFlag f.flags FLAG_RTX = true →
      protoRecv st f = (st, [.dispatch f])) := by
  refine ⟨?_, ?_, ?_, ?_⟩
  · intro st f hf
    unfold protoTransmit
    rw [if_neg (by simp [hf])]
  · intro st fs htx hlen hall
    rw [protoTransmitAll_tx_seq fs st (by omega) hall, htx, hlen]
  · intro st f r hrx hseq hf
    have hres : protoRecv st f = (st, [.sendAck]) := by
      unfold protoRecv
      rw [if_neg (by simp [hf]), hrx]
      simp only [hseq, if_pos rfl]
      simp
    refine ⟨hres, ?_⟩
    intro g
    rw [hres]
    simp
  · intro st f hf
    unfold protoRecv
    rw [if_pos (by simp [hf])]

/-- C3 witness: the four parts at concrete states and frames. -/
theorem spec_C3_witness :
    protoTransmit initState ⟨5, 1, 0, 2, []⟩ =
      ({initState with tx_seq := 1}, ⟨0, 1, 0, 2, []⟩) ∧
    (protoTransmitAll initState (List.replicate 256 ⟨5, 1, 0, 2, []⟩)).1.tx_seq
      = 0 ∧
    protoRecv {initState with rx_seq := some 7} ⟨7, 0, 8, 1, []⟩ =
      ({initState with rx_seq := some 7}, [.sendAck]) ∧
    protoRecv initState ⟨9, 0, FLAG_RTX, 1, []⟩ =
      (initState, [.dispatch ⟨9, 0, FLAG_RTX, 1, []⟩]) := by
  obtain ⟨ha, hb, hc, hd⟩ := spec_C3
  refine ⟨ha initState ⟨5, 1, 0, 2, []⟩ (by decide), ?_, ?_, ?_⟩
  · exact hb initState (List.replicate 256 ⟨5, 1, 0, 2, []⟩) rfl (by simp)
      (by
        intro f hf
        rw [List.eq_of_mem_replicate hf]
        rfl)
  · exact (hc {initState with rx_seq := some 7} ⟨7, 0, 8, 1, []⟩ 7 rfl rfl
      (by decide)).1
  · exact hd initState ⟨9, 0, FLAG_RTX, 1, []⟩ (by decide)

/-- C4: PROTO_SYNC first hands the 2-byte status 0x0000 response — carrying
the pre-reset `tx_seq` — to the transmit path, and only then resets the
state: afterwards `tx_seq` is 0, `rx_seq` is cleared, the reassembly buffer
is empty and the RTX queue is empty. -/
theorem spec_C4 (st : ProtoState) :
    (procSync st).1 =
      [HandlerStep.txFrame ⟨st.tx_seq, 0, FLAG_ACK, 0x00, [0, 0]⟩,
       HandlerStep.reset] ∧
    (procSync st).2.tx_seq = 0 ∧
    (procSync st).2.rx_seq = none ∧
    (procSync st).2.reasm_buf = none ∧
    (procSync st).2.rtx_queue = [] :=
  ⟨rfl, rfl, rfl, rfl, rfl⟩

/-- C4 witness: the statement at a concrete protocol state. -/
theorem spec_C4_witness :
    (procSync {initState with tx_seq := 9}).1 =
      [HandlerStep.txFrame ⟨9, 0, FLAG_ACK, 0x00, [0, 0]⟩,
       HandlerStep.reset] ∧
    (procSync {initState with tx_seq := 9}).2.tx_seq = 0 ∧
    (procSync {initState with tx_seq := 9}).2.rx_seq = none ∧
    (procSync {initState with tx_seq := 9}).2.reasm_buf = none ∧
    (procSync {initState with tx_seq := 9}).2.rtx_queue = [] :=
  spec_C4 {initState with tx_seq := 9}

/-- C5: a send with ACK_REQ and no ACK produces exactly 4 frames on the
wire — the original plus 3 retransmissions, each retransmission with the
RTX flag set and preceded by the backoff waits 500, 1000, 2000 ms — after
which the queue entry is dropped, `transport_errors` is incremented once,
and failure is reported to the originator. -/
theorem spec_C5 (f : Frame) :
    (sendNoAck f).wire =
      [(f, 0), (setRtx f, 500), (setRtx f, 1000), (setRtx f, 2000)] ∧
    (sendNoAck f).wire.length = 4 ∧
    (∀ q ∈ (sendNoAck f).wire.drop 1, hasFlag q.1.flags FLAG_RTX = true) ∧
    (sendNoAck f).dropped = true ∧
    (sendNoAck f).transport_error_increments = 1 ∧
    (sendNoAck f).failure_reported = true := by
  have hw : (sendNoAck f).wire =
      [(f, 0), (setRtx f, 500), (setRtx f, 1000), (setRtx f, 2000)] := by
    show (f, 0) :: (rtxDrain f 3 500).wire = _
    simp only [rtxDrain, setRtx_idem]
  refine ⟨hw, by rw [hw]; rfl, ?_, rfl, rfl, rfl⟩
  intro q hq
  rw [hw] at hq
  simp only [List.drop_succ_cons, List.drop_zero, List.mem_cons,
    List.not_mem_nil, or_false] at hq
  rcases hq with h | h | h <;> subst h <;> exact hasFlag_setRtx f

/-- C5 witness: the statement at a concrete frame. -/
theorem spec_C5_witness :
    (sendNoAck ⟨0, 2, FLAG_ACK_REQ, 0x26, [1]⟩).wire =
      [(⟨0, 2, FLAG_ACK_REQ, 0x26, [1]⟩, 0),
       (setRtx ⟨0, 2, FLAG_ACK_REQ, 0x26, [1]⟩, 500),
       (setRtx ⟨0, 2, FLAG_ACK_REQ, 0x26, [1]⟩, 1000),
       (setRtx ⟨0, 2, FLAG_ACK_REQ, 0x26, [1]⟩, 2000)] ∧
    (sendNoAck ⟨0, 2, FLAG_ACK_REQ, 0x26, [1]⟩).wire.length = 4 ∧
    (∀ q ∈ (sendNoAck ⟨0, 2, FLAG_ACK_REQ, 0x26, [1]⟩).wire.drop 1,
      hasFlag q.1.flags FLAG_RTX = true) ∧
    (sendNoAck ⟨0, 2, FLAG_ACK_REQ, 0x26, [1]⟩).dropped = true ∧
    (sendNoAck ⟨0, 2, FLAG_ACK_REQ, 0x26, [1]⟩).transport_error_increments
      = 1 ∧
    (sendNoAck ⟨0, 2, FLAG_ACK_REQ, 0x26, [1]⟩).failure_reported = true :=
  spec_C5 ⟨0, 2, FLAG_ACK_REQ, 0x26, [1]⟩

/-- C7: an event frame is emitted iff events are enabled, the transport is
ready and the ACK queue has headroom; every emitted event frame has EVENT
set and ACK_REQ clear; and the RTX queue is never touched, so an event is
never retransmitted and a dropped event is not retried. -/
theorem spec_C7 (caps : Caps) (ready headroom : Bool) (chan opcode : Nat)
    (payload : List Nat) (rtxq : List RtxEntry) :
    ((∃ fr, (emitEvent caps ready headroom chan opcode payload rtxq).1 =
        some fr) ↔ (caps.events = true ∧ ready = true ∧ headroom = true)) ∧
    (∀ fr, (emitEvent caps ready headroom chan opcode payload rtxq).1 =
        some fr →
      hasFlag fr.flags FLAG_EVENT = true ∧
        hasFlag fr.flags FLAG_ACK_REQ = false) ∧
    (emitEvent caps ready headroom chan opcode payload rtxq).2 = rtxq := by
  unfold emitEvent
  by_cases h : caps.events = true ∧ ready = true ∧ headroom = true
  · rw [if_pos h]
    refine ⟨⟨fun _ => h, fun _ => ⟨_, rfl⟩⟩, ?_, rfl⟩
    intro fr heq
    have hfr : fr = ⟨0, chan, FLAG_EVENT, opcode, payload⟩ := by
      injection heq with h2
      exact h2.symm
    subst hfr
    exact ⟨by show hasFlag FLAG_EVENT FLAG_EVENT = true; decide,
      by show hasFlag FLAG_EVENT FLAG_ACK_REQ = false; decide⟩
  · rw [if_neg h]
    refine ⟨⟨?_, fun hcontra => absurd hcontra h⟩, ?_, rfl⟩
    · rintro ⟨fr, hfr⟩
      simp at hfr
    · intro fr heq
      simp at heq

/-- C7 witness: emission at enabled capabilities and a ready transport. -/
theorem spec_C7_witness :
    ((∃ fr, (emitEvent defaultCaps true true 0 0x13 [1, 0, 0, 0] []).1 =
        some fr) ↔ (defaultCaps.events = true ∧ true = true ∧
          true = true)) ∧
    (∀ fr, (emitEvent defaultCaps true true 0 0x13 [1, 0, 0, 0] []).1 =
        some fr →
      hasFlag fr.flags FLAG_EVENT = true ∧
        hasFlag fr.flags FLAG_ACK_REQ = false) ∧
    (emitEvent defaultCaps true true 0 0x13 [1, 0, 0, 0] []).2 = [] :=
  spec_C7 defaultCaps true true 0 0x13 [1, 0, 0, 0] []

/-- The capability flag word stays below 16. -/
theorem capsFlagWord_lt (c : Caps) : capsFlagWord c < 16 := by
  unfold capsFlagWord
  split_ifs <;> omega

/-- The capability flag word encodes the four Booleans in bits 0..3. -/
theorem capsFlagWord_testBit (c : Caps) :
    (capsFlagWord c).testBit 0 = c.crc ∧
    (capsFlagWord c).testBit 1 = c.seq ∧
    (capsFlagWord c).testBit 2 = c.ack ∧
    (capsFlagWord c).testBit 3 = c.events := by
  obtain ⟨cc, cs, ca, ce, mp⟩ := c
  show (capsFlagWord ⟨cc, cs, ca, ce, mp⟩).testBit 0 = cc ∧
    (capsFlagWord ⟨cc, cs, ca, ce, mp⟩).testBit 1 = cs ∧
    (capsFlagWord ⟨cc, cs, ca, ce, mp⟩).testBit 2 = ca ∧
    (capsFlagWord ⟨cc, cs, ca, ce, mp⟩).testBit 3 = ce
  have hmp : capsFlagWord ⟨cc, cs, ca, ce, mp⟩ =
      capsFlagWord ⟨cc, cs, ca, ce, 0⟩ := rfl
  rw [hmp]
  clear hmp
  revert cc cs ca ce
  decide

/-- The wire form of a capability record is 16 bytes. -/
theorem encodeCaps_length (c : Caps) : (encodeCaps c).length = 16 := by
  simp [encodeCaps, le32, le16]

/-- The encoded capability record, written out byte by byte. -/
theorem encodeCaps_cons (c : Caps) :
    encodeCaps c = capsFlagWord c % 256 :: capsFlagWord c / 256 % 256 ::
      capsFlagWord c / 65536 % 256 :: capsFlagWord c / 16777216 % 256 ::
      c.max_payload % 256 :: c.max_payload / 256 % 256 ::
      List.replicate 10 0 := by
  simp [encodeCaps, le32, le16]

/-- The flag word read back from an encoded capability record. -/
theorem encodeCaps_read32 (c : Caps) :
    readLE32 (encodeCaps c) 0 = capsFlagWord c := by
  have h : readLE32 (encodeCaps c) 0 =
      capsFlagWord c % 256 + 256 * (capsFlagWord c / 256 % 256) +
      65536 * (capsFlagWord c / 65536 % 256) +
      16777216 * (capsFlagWord c / 16777216 % 256) := by
    rw [encodeCaps_cons]
    rfl
  rw [h]
  have := capsFlagWord_lt c
  omega

/-- The max payload read back from an encoded capability record. -/
theorem encodeCaps_read16 (c : Caps) :
    readLE16 (encodeCaps c) 4 = c.max_payload % 65536 := by
  have h : readLE16 (encodeCaps c) 4 =
      c.max_payload % 256 + 256 * (c.max_payload / 256 % 256) := by
    rw [encodeCaps_cons]
    rfl
  rw [h]
  omega

/-- Decoding an encoded capability record restores it exactly, provided
the max payload fits in 16 bits. -/
theorem decodeCaps_encodeCaps (c : Caps) (hmp : c.max_payload < 65536) :
    decodeCaps (encodeCaps c) = c := by
  obtain ⟨h0, h1, h2, h3⟩ := capsFlagWord_testBit c
  unfold decodeCaps
  rw [encodeCaps_read32, encodeCaps_read16]
  show (⟨(capsFlagWord c).testBit 0, (capsFlagWord c).testBit 1,
      (capsFlagWord c).testBit 2, (capsFlagWord c).testBit 3,
      c.max_payload % 65536⟩ : Caps) = c
  rw [h0, h1, h2, h3, Nat.mod_eq_of_lt hmp]

/-- The clamp keeps the max payload inside [50, 4082]. -/
theorem clampPayload_bounds (n : Nat) :
    MIN_PAYLOAD ≤ clampPayload n ∧ clampPayload n ≤ MAX_PAYLOAD := by
  unfold clampPayload MIN_PAYLOAD MAX_PAYLOAD
  omega

/-- C8: GET_CAPS and SET_CAPS exchange 16-byte capability records;
SET_CAPS clamps the requested max payload into [50, 4082], echoes exactly
the accepted values in its 16-byte response, and leaves an in-range
request unchanged. -/
theorem spec_C8 (c : Caps) (req : List Nat) :
    (procGetCaps c).length = 16 ∧
    (procSetCaps req).2.length = 16 ∧
    (procSetCaps req).2 = encodeCaps (procSetCaps req).1 ∧
    MIN_PAYLOAD ≤ (procSetCaps req).1.max_payload ∧
    (procSetCaps req).1.max_payload ≤ MAX_PAYLOAD ∧
    decodeCaps (procSetCaps req).2 = (procSetCaps req).1 ∧
    (procSetCaps req).1.crc = (readLE32 req 0).testBit 0 ∧
    (procSetCaps req).1.seq = (readLE32 req 0).testBit 1 ∧
    (procSetCaps req).1.ack = (readLE32 req 0).testBit 2 ∧
    (procSetCaps req).1.events = (readLE32 req 0).testBit 3 ∧
    (procSetCaps req).1.max_payload = clampPayload (readLE16 req 4) ∧
    (MIN_PAYLOAD ≤ readLE16 req 4 → readLE16 req 4 ≤ MAX_PAYLOAD →
      (procSetCaps req).1.max_payload = readLE16 req 4) := by
  obtain ⟨hlo, hhi⟩ := clampPayload_bounds (readLE16 req 4)
  have hacc : (procSetCaps req).1 =
      ⟨(readLE32 req 0).testBit 0, (readLE32 req 0).testBit 1,
       (readLE32 req 0).testBit 2, (readLE32 req 0).testBit 3,
       clampPayload (readLE16 req 4)⟩ := rfl
  refine ⟨encodeCaps_length c, ?_, rfl, ?_, ?_, ?_, rfl, rfl, rfl, rfl, rfl,
    ?_⟩
  · exact encodeCaps_length _
  · rw [hacc]
    exact hlo
  · rw [hacc]
    exact hhi
  · show decodeCaps (encodeCaps (procSetCaps req).1) = (procSetCaps req).1
    apply decodeCaps_encodeCaps
    rw [hacc]
    show clampPayload (readLE16 req 4) < 65536
    unfold clampPayload MIN_PAYLOAD MAX_PAYLOAD
    omega
  · intro hlo2 hhi2
    rw [hacc]
    show clampPayload (readLE16 req 4) = readLE16 req 4
    unfold clampPayload
    unfold MIN_PAYLOAD at hlo2
    unfold MAX_PAYLOAD at hhi2
    unfold MIN_PAYLOAD MAX_PAYLOAD
    omega

/-- C8 witness: SET_CAPS on a concrete 16-byte request. -/
theorem spec_C8_witness :
    (procGetCaps defaultCaps).length = 16 ∧
    (procSetCaps (encodeCaps ⟨true, true, false, true, 100⟩)).2.length = 16 ∧
    (procSetCaps (encodeCaps ⟨true, true, false, true, 100⟩)).2 =
      encodeCaps (procSetCaps (encodeCaps ⟨true, true, false, true, 100⟩)).1 ∧
    MIN_PAYLOAD ≤
      (procSetCaps (encodeCaps ⟨true, true, false, true, 100⟩)).1.max_payload ∧
    (procSetCaps (encodeCaps ⟨true, true, false, true, 100⟩)).1.max_payload ≤
      MAX_PAYLOAD ∧
    decodeCaps (procSetCaps (encodeCaps ⟨true, true, false, true, 100⟩)).2 =
      (procSetCaps (encodeCaps ⟨true, true, false, true, 100⟩)).1 ∧
    (procSetCaps (encodeCaps ⟨true, true, false, true, 100⟩)).1.crc =
      (readLE32 (encodeCaps ⟨true, true, false, true, 100⟩) 0).testBit 0 ∧
    (procSetCaps (encodeCaps ⟨true, true, false, true, 100⟩)).1.seq =
      (readLE32 (encodeCaps ⟨true, true, false, true, 100⟩) 0).testBit 1 ∧
    (procSetCaps (encodeCaps ⟨true, true, false, true, 100⟩)).1.ack =
      (readLE32 (encodeCaps ⟨true, true, false, true, 100⟩) 0).testBit 2 ∧
    (procSetCaps (encodeCaps ⟨true, true, false, true, 100⟩)).1.events =
      (readLE32 (encodeCaps ⟨true, true, false, true, 100⟩) 0).testBit 3 ∧
    (procSetCaps (encodeCaps ⟨true, true, false, true, 100⟩)).1.max_payload =
      clampPayload (readLE16 (encodeCaps ⟨true, true, false, true, 100⟩) 4) ∧
    (MIN_PAYLOAD ≤ readLE16 (encodeCaps ⟨true, true, false, true, 100⟩) 4 →
      readLE16 (encodeCaps ⟨true, true, false, true, 100⟩) 4 ≤ MAX_PAYLOAD →
      (procSetCaps (encodeCaps ⟨true, true, false, true, 100⟩)).1.max_payload
        = readLE16 (encodeCaps ⟨true, true, false, true, 100⟩) 4) :=
  spec_C8 defaultCaps (encodeCaps ⟨true, true, false, true, 100⟩)

/-- A fitted field has exactly its declared width. -/
theorem fit_length (n : Nat) (l : List Nat) : (fit n l).length = n := by
  unfold fit
  rw [List.length_take]
  simp [List.length_append, List.length_replicate]

/-- Dropping past a left part of a known length. -/
theorem drop_app_len (a b : List Nat) (m n : Nat) (ha : a.length = m)
    (h : m ≤ n) : (a ++ b).drop n = b.drop (n - m) := by
  subst ha
  rw [show n = a.length + (n - a.length) by omega, List.drop_append]
  congr 1
  omega

/-- Dropping past a left part, with the remainder offset given. -/
theorem drop_app_split (a b : List Nat) (m n r : Nat) (ha : a.length = m)
    (h : n = m + r) : (a ++ b).drop n = b.drop r := by
  rw [drop_app_len a b m n ha (by omega)]
  congr 1
  omega

/-- C9: the SYS_INFO identification record is 80 bytes; its
firmware_version field at offsets 68..70 is 4.7.0 (the
FIRMWARE_VERSION constants of `common/usbdbg.h`) and its protocol_version
field at offsets 71..73 is 1.0.0. -/
theorem spec_C9 (inp : SysInfoInput) :
    (sysInfoRecord inp).length = 80 ∧
    ((sysInfoRecord inp).drop 68).take 3 = [4, 7, 0] ∧
    ((sysInfoRecord inp).drop 71).take 3 = [1, 0, 0] := by
  have h68 : (sysInfoRecord inp).drop 68 =
      [FIRMWARE_VERSION_MAJOR, FIRMWARE_VERSION_MINOR,
        FIRMWARE_VERSION_PATCH] ++
      (PROTOCOL_VERSION ++
        (fit 3 inp.bootloader_version ++ List.replicate 3 0)) := by
    unfold sysInfoRecord
    simp only [List.append_assoc]
    rw [drop_app_split (le32 inp.cpu_id) _ 4 68 64 (by simp [le32])
      (by norm_num)]
    rw [drop_app_split (fit 12 inp.dev_id) _ 12 64 52 (fit_length _ _)
      (by norm_num)]
    rw [drop_app_split (fit 12 inp.chip_id) _ 12 52 40 (fit_length _ _)
      (by norm_num)]
    rw [drop_app_split (List.replicate 8 0) _ 8 40 32 (by simp)
      (by norm_num)]
    rw [drop_app_split (fit 8 (le32 inp.hw_caps)) _ 8 32 24 (fit_length _ _)
      (by norm_num)]
    rw [drop_app_split (le32 inp.flash_size_kb) _ 4 24 20 (by simp [le32])
      (by norm_num)]
    rw [drop_app_split (le32 inp.ram_size_kb) _ 4 20 16 (by simp [le32])
      (by norm_num)]
    rw [drop_app_split (le32 inp.framebuffer_size_kb) _ 4 16 12
      (by simp [le32]) (by norm_num)]
    rw [drop_app_split (le32 inp.stream_buffer_size_kb) _ 4 12 8
      (by simp [le32]) (by norm_num)]
    rw [drop_app_split (List.replicate 8 0) _ 8 8 0 (by simp) (by norm_num)]
    rfl
  refine ⟨?_, ?_, ?_⟩
  · unfold sysInfoRecord
    simp [le32, fit_length, PROTOCOL_VERSION]
  · rw [h68, List.take_append_of_le_length (by norm_num)]
    rfl
  · have h71 : (sysInfoRecord inp).drop 71 =
        PROTOCOL_VERSION ++
          (fit 3 inp.bootloader_version ++ List.replicate 3 0) := by
      have hdd : (sysInfoRecord inp).drop 71 =
          ((sysInfoRecord inp).drop 68).drop 3 := by
        rw [List.drop_drop]
      rw [hdd, h68]
      rw [drop_app_split [FIRMWARE_VERSION_MAJOR, FIRMWARE_VERSION_MINOR,
        FIRMWARE_VERSION_PATCH] _ 3 3 0 (by simp) (by norm_num)]
      rfl
    rw [h71]
    unfold PROTOCOL_VERSION
    rw [List.take_append_of_le_length (by norm_num)]
    rfl

/-- C9 witness: the record of a concrete device description. -/
theorem spec_C9_witness :
    (sysInfoRecord ⟨1, [2], [3], 4, 5, 6, 7, 8, [9]⟩).length = 80 ∧
    ((sysInfoRecord ⟨1, [2], [3], 4, 5, 6, 7, 8, [9]⟩).drop 68).take 3 =
      [4, 7, 0] ∧
    ((sysInfoRecord ⟨1, [2], [3], 4, 5, 6, 7, 8, [9]⟩).drop 71).take 3 =
      [1, 0, 0] :=
  spec_C9 ⟨1, [2], [3], 4, 5, 6, 7, 8, [9]⟩

/-- Reading a replicate of zeros yields zero. -/
theorem getD_replicate_zero (n j : Nat) :
    (List.replicate n 0).getD j 0 = 0 := by
  by_cases hj : j < n
  · simp [List.getD_eq_getElem?_getD, List.getElem?_replicate, hj]
  · simp [List.getD_eq_getElem?_getD, List.getElem?_replicate, hj]

/-- C10: `framebuffer_reset` — `memset(buffer, 0, offsetof(vbuffer_t,
data))` — zeroes the header fields that precede the `data` member (the
`offset` field at byte 0 and the `flags` field at byte 4, both inside the
zeroed prefix since `offsetof(vbuffer_t, data) ≥ 8`) and leaves every byte
of `buffer->data` unchanged. -/
theorem spec_C10 (dataOff : Nat) (m : List Nat) (h8 : 8 ≤ dataOff)
    (hlen : dataOff ≤ m.length) :
    vbufferOffset (framebuffer_reset dataOff m) = 0 ∧
    vbufferFlags (framebuffer_reset dataOff m) = 0 ∧
    (∀ j < dataOff, (framebuffer_reset dataOff m).getD j 0 = 0) ∧
    vbufferData dataOff (framebuffer_reset dataOff m) =
      vbufferData dataOff m := by
  have hmin : min dataOff m.length = dataOff := by omega
  have hform : framebuffer_reset dataOff m =
      List.replicate dataOff 0 ++ m.drop dataOff := by
    unfold framebuffer_reset memsetZero
    rw [hmin]
  have hzero : ∀ j < dataOff, (framebuffer_reset dataOff m).getD j 0 = 0 := by
    intro j hj
    rw [hform, getD_append_left 0 (by simp [List.length_replicate]; omega),
      getD_replicate_zero]
  refine ⟨?_, ?_, hzero, ?_⟩
  · unfold vbufferOffset readLE32
    rw [hzero 0 (by omega), hzero 1 (by omega), hzero 2 (by omega),
      hzero 3 (by omega)]
  · unfold vbufferFlags readLE32
    rw [hzero 4 (by omega), hzero 5 (by omega), hzero 6 (by omega),
      hzero 7 (by omega)]
  · unfold vbufferData
    rw [hform, drop_app_len _ _ dataOff dataOff (by simp) (by omega)]
    simp

/-- C10 witness: resetting a concrete 12-byte vbuffer region with the
data member at byte 8. -/
theorem spec_C10_witness :
    vbufferOffset (framebuffer_reset 8 [1, 2, 3, 4, 5, 6, 7, 8, 9, 10, 11, 12])
      = 0 ∧
    vbufferFlags (framebuffer_reset 8 [1, 2, 3, 4, 5, 6, 7, 8, 9, 10, 11, 12])
      = 0 ∧
    (∀ j < 8,
      (framebuffer_reset 8 [1, 2, 3, 4, 5, 6, 7, 8, 9, 10, 11, 12]).getD j 0
        = 0) ∧
    vbufferData 8 (framebuffer_reset 8 [1, 2, 3, 4, 5, 6, 7, 8, 9, 10, 11, 12])
      = vbufferData 8 [1, 2, 3, 4, 5, 6, 7, 8, 9, 10, 11, 12] :=
  spec_C10 8 [1, 2, 3, 4, 5, 6, 7, 8, 9, 10, 11, 12] (by decide) (by decide)

/-! ## Fragmentation theory -/

/-- The chunk list is never empty. -/
theorem chunks_ne_nil (maxp : Nat) (l : List Nat) : chunks maxp l ≠ [] := by
  rw [chunks]
  split <;> simp

/-- Concatenating the chunks restores the payload (fuel-indexed). -/
theorem chunks_flatten_fuel (maxp : Nat) :
    ∀ (n : Nat) (l : List Nat), l.length ≤ n →
      (chunks maxp l).flatten = l := by
  intro n
  induction n with
  | zero =>
    intro l hl
    have hnil : l = [] := by
      cases l with
      | nil => rfl
      | cons a as => simp at hl
    subst hnil
    rw [chunks]
    simp
  | succ n ih =>
    intro l hl
    rw [chunks]
    split
    · simp
    · next h =>
      simp only [not_or] at h
      simp only [List.flatten_cons]
      rw [ih (l.drop maxp) (by simp [List.length_drop]; omega)]
      exact List.take_append_drop maxp l

/-- Concatenating the chunks restores the payload. -/
theorem chunks_flatten (maxp : Nat) (l : List Nat) :
    (chunks maxp l).flatten = l :=
  chunks_flatten_fuel maxp l.length l le_rfl

/-- Every chunk is at most `maxp` bytes (fuel-indexed). -/
theorem chunks_le_fuel (maxp : Nat) (hm : 0 < maxp) :
    ∀ (n : Nat) (l : List Nat), l.length ≤ n →
      ∀ c ∈ chunks maxp l, c.length ≤ maxp := by
  intro n
  induction n with
  | zero =>
    intro l hl c hc
    have hnil : l = [] := by
      cases l with
      | nil => rfl
      | cons a as => simp at hl
    subst hnil
    rw [chunks] at hc
    simp at hc
    simp [hc]
  | succ n ih =>
    intro l hl c hc
    rw [chunks] at hc
    split at hc
    · next hguard =>
      rcases hguard with hle | hz
      · simp at hc
        subst hc
        exact hle
      · omega
    · next h =>
      simp only [not_or] at h
      simp only [List.mem_cons] at hc
      rcases hc with hc | hc
      · subst hc
        simp [List.length_take]
      · exact ih (l.drop maxp) (by simp [List.length_drop]; omega) c hc

/-- Every chunk is at most `maxp` bytes. -/
theorem chunks_le (maxp : Nat) (hm : 0 < maxp) (l : List Nat) :
    ∀ c ∈ chunks maxp l, c.length ≤ maxp :=
  chunks_le_fuel maxp hm l.length l le_rfl

/-- The number of chunks is the ceiling of length over `maxp`
(fuel-indexed). -/
theorem chunks_count_fuel (maxp : Nat) (hm : 0 < maxp) :
    ∀ (n : Nat) (l : List Nat), l.length ≤ n → 1 ≤ l.length →
      (chunks maxp l).length = (l.length + maxp - 1) / maxp := by
  intro n
  induction n with
  | zero =>
    intro l hl h1
    omega
  | succ n ih =>
    intro l hl h1
    rw [chunks]
    split
    · next hguard =>
      have hle : l.length ≤ maxp := by
        rcases hguard with h | h
        · exact h
        · omega
      simp only [List.length_cons, List.length_nil]
      symm
      apply Nat.div_eq_of_lt_le
      · omega
      · omega
    · next h =>
      simp only [not_or] at h
      obtain ⟨hgt, _⟩ := h
      simp only [List.length_cons]
      rw [ih (l.drop maxp) (by simp [List.length_drop]; omega)
        (by simp [List.length_drop]; omega)]
      simp only [List.length_drop]
      rw [show l.length + maxp - 1 = (l.length - maxp + maxp - 1) + maxp by
        omega]
      rw [Nat.add_div_right _ hm]

/-- The number of chunks is the ceiling of length over `maxp`. -/
theorem chunks_count (maxp : Nat) (hm : 0 < maxp) (l : List Nat)
    (h1 : 1 ≤ l.length) :
    (chunks maxp l).length = (l.length + maxp - 1) / maxp :=
  chunks_count_fuel maxp hm l.length l le_rfl h1

/-- Fragment frames are one per chunk. -/
theorem fragFrames_length (ch op : Nat) (cs : List (List Nat)) :
    ∀ s, (fragFrames ch op s cs).length = cs.length := by
  induction cs with
  | nil => intro s; rfl
  | cons c cs ih =>
    intro s
    cases cs with
    | nil => rfl
    | cons c2 cs2 =>
      simp only [fragFrames, List.length_cons]
      rw [ih (s + 1)]
      simp

/-- Fragment frames carry the chunks as payloads, in order. -/
theorem fragFrames_payloads (ch op : Nat) (cs : List (List Nat)) :
    ∀ s, (fragFrames ch op s cs).map Frame.payload = cs := by
  induction cs with
  | nil => intro s; rfl
  | cons c cs ih =>
    intro s
    cases cs with
    | nil => rfl
    | cons c2 cs2 =>
      simp only [fragFrames, List.map_cons]
      rw [ih (s + 1)]

/-- Every fragment frame carries the payload channel and opcode. -/
theorem fragFrames_chanop (ch op : Nat) (cs : List (List Nat)) :
    ∀ s, ∀ f ∈ fragFrames ch op s cs, f.chan = ch ∧ f.opcode = op := by
  induction cs with
  | nil =>
    intro s f hf
    simp [fragFrames] at hf
  | cons c cs ih =>
    intro s f hf
    cases cs with
    | nil =>
      simp only [fragFrames, List.mem_singleton] at hf
      subst hf
      exact ⟨rfl, rfl⟩
    | cons c2 cs2 =>
      simp only [fragFrames, List.mem_cons] at hf
      rcases hf with hf | hf
      · subst hf
        exact ⟨rfl, rfl⟩
      · exact ih (s + 1) f hf

/-- Fragment frames set FRAGMENT on every frame except the last, which
carries no flags. -/
theorem fragFrames_flags (ch op : Nat) (cs : List (List Nat))
    (hcs : cs ≠ []) :
    ∀ s, (fragFrames ch op s cs).map Frame.flags =
      List.replicate (cs.length - 1) FLAG_FRAGMENT ++ [0] := by
  induction cs with
  | nil => exact absurd rfl hcs
  | cons c cs ih =>
    intro s
    cases cs with
    | nil => rfl
    | cons c2 cs2 =>
      simp only [fragFrames, List.map_cons]
      rw [ih (by simp) (s + 1)]
      simp only [List.length_cons, Nat.add_sub_cancel]
      rw [List.replicate_succ]
      simp only [List.cons_append]

/-- Fragment frames carry consecutive sequence numbers mod 256. -/
theorem fragFrames_seqs (ch op : Nat) (cs : List (List Nat)) :
    ∀ s i, i < cs.length →
      ((fragFrames ch op s cs).map Frame.seq).getD i 0 = (s + i) % 256 := by
  induction cs with
  | nil =>
    intro s i hi
    simp at hi
  | cons c cs ih =>
    intro s i hi
    cases cs with
    | nil =>
      have hi0 : i = 0 := by
        simp at hi
        exact hi
      subst hi0
      rfl
    | cons c2 cs2 =>
      cases i with
      | zero => rfl
      | succ j =>
        have hj : j < (c2 :: cs2).length := by
          simp at hi ⊢
          omega
        have hih := ih (s + 1) j hj
        simp only [fragFrames, List.map_cons, List.getD_cons_succ]
        rw [hih, show s + 1 + j = s + (j + 1) by omega]

/-- Running the reassembler over the fragment frames of a chunk list
appends every chunk and dispatches the concatenation on the final
fragment. -/
theorem reasmRun_frag (cap ch op : Nat) (cs : List (List Nat)) :
    ∀ (acc : List Nat) (s : Nat), cs ≠ [] →
      acc.length + cs.flatten.length ≤ cap →
      reasmRun cap (some ⟨ch, op, acc⟩) (fragFrames ch op s cs) =
        (none, List.replicate (cs.length - 1) ReasmOut.pending ++
          [ReasmOut.done ch op (acc ++ cs.flatten)]) := by
  induction cs with
  | nil =>
    intro acc s hne hcap
    exact absurd rfl hne
  | cons c cs ih =>
    intro acc s hne hcap
    cases cs with
    | nil =>
      simp only [fragFrames, reasmRun, reasmStep]
      rw [if_neg (by simp)]
      rw [if_neg (by
        simp only [List.flatten_cons, List.flatten_nil, List.append_nil,
          List.length_append] at hcap
        simp only [not_lt]
        omega)]
      rw [if_neg (by show ¬ hasFlag 0 FLAG_FRAGMENT = true; decide)]
      simp [List.flatten_cons]
    | cons c2 cs2 =>
      simp only [fragFrames, reasmRun]
      have hstep : reasmStep cap (some ⟨ch, op, acc⟩)
          ⟨s % 256, ch, FLAG_FRAGMENT, op, c⟩ =
          (some ⟨ch, op, acc ++ c⟩, ReasmOut.pending) := by
        unfold reasmStep
        rw [if_neg (by simp)]
        rw [if_neg (by
          simp only [List.flatten_cons, List.length_append] at hcap
          simp only [not_lt]
          omega)]
        rw [if_pos (by show hasFlag FLAG_FRAGMENT FLAG_FRAGMENT = true
                       decide)]
      rw [hstep]
      have hih := ih (acc ++ c) (s + 1) (by simp) (by
        simp only [List.flatten_cons, List.length_append] at hcap ⊢
        omega)
      rw [hih]
      simp [List.replicate_succ, List.append_assoc]

/-- Starting a reassembly from the idle state behaves like starting from
an empty buffer keyed by the first frame. -/
theorem reasmRun_none (cap : Nat) (f : Frame) (fs : List Frame) :
    reasmRun cap none (f :: fs) =
      reasmRun cap (some ⟨f.chan, f.opcode, []⟩) (f :: fs) := rfl

/-- C2: with max_payload 256, a payload of length 1..16384 fragments into
exactly ⌈len/256⌉ frames, each carrying the same channel and opcode and a
payload of at most 256 bytes, with consecutive SEQ values, FRAGMENT set on
every frame but the last and the last frame unflagged; feeding the frames
in order to the reassembler reproduces exactly the original payload. -/
theorem spec_C2 (p : List Nat) (cap chan opcode seq : Nat)
    (h1 : 1 ≤ p.length) (h16 : p.length ≤ 16384) (hcap : p.length ≤ cap) :
    (fragment chan opcode seq 256 p).length = (p.length + 255) / 256 ∧
    (∀ f ∈ fragment chan opcode seq 256 p,
      f.chan = chan ∧ f.opcode = opcode ∧ f.payload.length ≤ 256) ∧
    (∀ i < (fragment chan opcode seq 256 p).length,
      ((fragment chan opcode seq 256 p).map Frame.seq).getD i 0 =
        (seq + i) % 256) ∧
    (fragment chan opcode seq 256 p).map Frame.flags =
      List.replicate ((fragment chan opcode seq 256 p).length - 1)
        FLAG_FRAGMENT ++ [0] ∧
    reasmRun cap none (fragment chan opcode seq 256 p) =
      (none, List.replicate ((fragment chan opcode seq 256 p).length - 1)
        ReasmOut.pending ++ [ReasmOut.done chan opcode p]) := by
  have hm : (0 : Nat) < 256 := by norm_num
  have hlenf : (fragment chan opcode seq 256 p).length =
      (chunks 256 p).length := fragFrames_length chan opcode _ seq
  have hcount : (chunks 256 p).length = (p.length + 255) / 256 := by
    rw [chunks_count 256 hm p h1]
    congr 1
  have hflat : (chunks 256 p).flatten = p := chunks_flatten 256 p
  refine ⟨by rw [hlenf, hcount], ?_, ?_, ?_, ?_⟩
  · intro f hf
    obtain ⟨hch, hop⟩ := fragFrames_chanop chan opcode (chunks 256 p) seq f hf
    refine ⟨hch, hop, ?_⟩
    have hpay : f.payload ∈ chunks 256 p := by
      have hmap := fragFrames_payloads chan opcode (chunks 256 p) seq
      rw [← hmap]
      exact List.mem_map_of_mem Frame.payload hf
    exact chunks_le 256 hm p f.payload hpay
  · intro i hi
    rw [hlenf] at hi
    exact fragFrames_seqs chan opcode (chunks 256 p) seq i hi
  · rw [hlenf]
    exact fragFrames_flags chan opcode (chunks 256 p)
      (chunks_ne_nil 256 p) seq
  · rw [hlenf]
    unfold fragment
    have hflen := fragFrames_length chan opcode (chunks 256 p) seq
    have hrun := reasmRun_frag cap chan opcode (chunks 256 p) [] seq
      (chunks_ne_nil 256 p) (by rw [hflat]; simpa using hcap)
    cases hc : fragFrames chan opcode seq (chunks 256 p) with
    | nil =>
      exfalso
      rw [hc] at hflen
      simp at hflen
      exact chunks_ne_nil 256 p (List.length_eq_zero.mp hflen.symm)
    | cons f fs =>
      obtain ⟨hcf, hof⟩ := fragFrames_chanop chan opcode (chunks 256 p) seq f
        (by rw [hc]; simp)
      rw [hc] at hrun
      rw [reasmRun_none, hcf, hof, hrun, hflat]
      simp

/-- C2 witness: fragmenting a concrete 300-byte payload into two frames
and reassembling it. -/
theorem spec_C2_witness :
    (fragment 2 38 0 256 (List.replicate 300 7)).length =
      ((List.replicate 300 7 : List Nat).length + 255) / 256 ∧
    (∀ f ∈ fragment 2 38 0 256 (List.replicate 300 7),
      f.chan = 2 ∧ f.opcode = 38 ∧ f.payload.length ≤ 256) ∧
    (∀ i < (fragment 2 38 0 256 (List.replicate 300 7)).length,
      ((fragment 2 38 0 256 (List.replicate 300 7)).map Frame.seq).getD i 0 =
        (0 + i) % 256) ∧
    (fragment 2 38 0 256 (List.replicate 300 7)).map Frame.flags =
      List.replicate ((fragment 2 38 0 256 (List.replicate 300 7)).length - 1)
        FLAG_FRAGMENT ++ [0] ∧
    reasmRun 300 none (fragment 2 38 0 256 (List.replicate 300 7)) =
      (none, List.replicate
        ((fragment 2 38 0 256 (List.replicate 300 7)).length - 1)
        ReasmOut.pending ++ [ReasmOut.done 2 38 (List.replicate 300 7)]) :=
  spec_C2 (List.replicate 300 7) 300 2 38 0 (by simp) (by simp) (by simp)
